import Mathlib

/-!
Verification of the CBOR/JSON serialization engine of the miniserde-ditto
repository (getditto/miniserde), as a shallow embedding in Lean 4.

Conventions used throughout this development:

* Rust machine integers are modelled as Lean `Nat` / `Int`; a byte is a
  `Nat` that the relevant well-formedness predicates bound by `256`.
* Rust `f64` / `f32` / `f16` values are modelled by their IEEE-754 bit
  patterns (a `Nat` below `2 ^ 64`, `2 ^ 32`, `2 ^ 16` respectively);
  the bit-exact widening conversions used by the decoder are implemented
  directly on the patterns.
* Fallible Rust code returns `Except` / `Option`; a Rust `panic!` /
  `unreachable!` / `unimplemented!` is modelled by a dedicated error
  constructor (`SErr.panicUnimplemented`, `DErr.panicUnreachable`, ...) or
  by `Option.none` where the source has `.expect(...)`, so that the
  "never crashes" parts of the specification are statable.
* The thread-local recursion-depth counter of `cbor::de` is modelled by
  explicit state passing: every decoding function takes the counter value
  and returns the counter value it leaves behind, on success and on error.
-/

namespace Miniserde

/-- Big-endian bytes of a value below `2 ^ 16` (Rust `u16::to_be_bytes`). -/
def be2 (v : Nat) : List Nat := [v / 2 ^ 8 % 256, v % 256]

/-- Big-endian bytes of a value below `2 ^ 32` (Rust `u32::to_be_bytes`). -/
def be4 (v : Nat) : List Nat :=
  [v / 2 ^ 24 % 256, v / 2 ^ 16 % 256, v / 2 ^ 8 % 256, v % 256]

/-- Big-endian bytes of a value below `2 ^ 64` (Rust `u64::to_be_bytes`). -/
def be8 (v : Nat) : List Nat :=
  [v / 2 ^ 56 % 256, v / 2 ^ 48 % 256, v / 2 ^ 40 % 256, v / 2 ^ 32 % 256,
   v / 2 ^ 24 % 256, v / 2 ^ 16 % 256, v / 2 ^ 8 % 256, v % 256]

/-- Recombine big-endian bytes (Rust `uN::from_be_bytes`). -/
def beVal (bs : List Nat) : Nat := bs.foldl (fun acc b => acc * 256 + b) 0

/-- Comparison of two naturals, mirroring Rust `Ord for u64 / usize`. -/
def ncmp (a b : Nat) : Ordering :=
  if a < b then .lt else if a = b then .eq else .gt

/-- Lexicographic comparison of byte sequences, mirroring Rust
`Ord for Vec<u8>` / `Ord for String` (shorter prefix sorts first). -/
def listCompare : List Nat → List Nat → Ordering
  | [], [] => .eq
  | [], _ :: _ => .lt
  | _ :: _, [] => .gt
  | a :: as, b :: bs =>
    match ncmp a b with
    | .eq => listCompare as bs
    | o => o

theorem ncmp_self (a : Nat) : ncmp a a = .eq := by simp [ncmp]

theorem ncmp_swap (a b : Nat) :
    ncmp b a = (ncmp a b).swap := by
  unfold ncmp
  rcases Nat.lt_trichotomy a b with h | h | h
  · simp [h, Nat.lt_asymm h, h.ne', Ordering.swap]
  · subst h; simp [Nat.lt_irrefl, Ordering.swap]
  · simp [h, Nat.lt_asymm h, h.ne', Ordering.swap]

theorem ncmp_eq_iff (a b : Nat) : ncmp a b = .eq ↔ a = b := by
  unfold ncmp
  rcases Nat.lt_trichotomy a b with h | h | h <;> simp [h] <;> omega

theorem listCompare_self (xs : List Nat) : listCompare xs xs = .eq := by
  induction xs with
  | nil => rfl
  | cons a as ih => simp [listCompare, ncmp_self, ih]

theorem listCompare_swap (xs ys : List Nat) :
    listCompare ys xs = (listCompare xs ys).swap := by
  induction xs generalizing ys with
  | nil => cases ys <;> rfl
  | cons a as ih =>
    cases ys with
    | nil => rfl
    | cons b bs =>
      simp only [listCompare, ncmp_swap a b]
      cases h : ncmp a b <;> simp [Ordering.swap, ih]

theorem listCompare_eq_iff (xs ys : List Nat) :
    listCompare xs ys = .eq ↔ xs = ys := by
  induction xs generalizing ys with
  | nil => cases ys <;> simp [listCompare]
  | cons a as ih =>
    cases ys with
    | nil => simp [listCompare]
    | cons b bs =>
      simp only [listCompare]
      cases h : ncmp a b with
      | eq =>
        have hab : a = b := (ncmp_eq_iff a b).mp h
        simp [hab, ih]
      | lt =>
        have hab : a ≠ b := fun he => by simp [he, ncmp_self] at h
        simp [hab]
      | gt =>
        have hab : a ≠ b := fun he => by simp [he, ncmp_self] at h
        simp [hab]

/-- Errors of the CBOR serialization path (`cbor/ser.rs`).  The source
returns `Err(None)` for the out-of-range integer error and panics on the
other two cases; the distinct constructors keep panics observable. -/
inductive SErr where
  /-- The ValueView Int arm: integer out of the CBOR range. -/
  | intRange
  /-- Serializing a `Value::Tag`: `unimplemented!` panic in `view()`. -/
  | panicUnimplemented
  /-- The dead `unreachable!` arm of `write_u64` (value above `u64::MAX`,
  impossible for a Rust `u64` but reachable for an unbounded `Nat`). -/
  | panicUnreachable
  /-- Fuel exhaustion of the iterative writer model; never reached when run
  with the fuel bound proved sufficient below. -/
  | fuel
deriving DecidableEq

/-- Model of `write_u64` in `cbor/ser.rs`: emit `mask | selector` followed by
the minimal big-endian magnitude form (immediate 0-23, 1, 2, 4 or 8 bytes). -/
def writeU64 (major v : Nat) : Except SErr (List Nat) :=
  let mask := major * 32
  if v ≤ 0x17 then .ok [mask + v]
  else if v ≤ 0xff then .ok [mask + 0x18, v]
  else if v ≤ 0xffff then .ok ((mask + 0x19) :: be2 v)
  else if v ≤ 0xffffffff then .ok ((mask + 0x1a) :: be4 v)
  else if v ≤ 0xffffffffffffffff then .ok ((mask + 0x1b) :: be8 v)
  else .error .panicUnreachable

/-- Number of binary digits of a natural number. -/
def bitlen : Nat → Nat
  | 0 => 0
  | n + 1 => bitlen ((n + 1) / 2) + 1
decreasing_by exact Nat.div_lt_self (Nat.succ_pos n) (by omega)

/-- Number of trailing zero bits of a natural number (0 for 0). -/
def ctz (n : Nat) : Nat :=
  if h : n = 0 then 0
  else if n % 2 = 1 then 0
  else ctz (n / 2) + 1
decreasing_by exact Nat.div_lt_self (Nat.pos_of_ne_zero h) (by omega)

/-- Sign bit of an `f64` bit pattern. -/
def f64Sign (f : Nat) : Nat := f / 2 ^ 63

/-- Biased exponent field of an `f64` bit pattern. -/
def f64Exp (f : Nat) : Nat := f / 2 ^ 52 % 2 ^ 11

/-- Mantissa field of an `f64` bit pattern. -/
def f64Man (f : Nat) : Nat := f % 2 ^ 52

/-- Rust `f64::is_nan` on the bit pattern. -/
def f64IsNan (f : Nat) : Bool := f64Exp f = 2047 && f64Man f ≠ 0

/-- Rust `f64::is_infinite` on the bit pattern. -/
def f64IsInf (f : Nat) : Bool := f64Exp f = 2047 && f64Man f = 0

/-- Rust `f64::is_sign_positive` on the bit pattern. -/
def f64IsSignPos (f : Nat) : Bool := f64Sign f = 0

/-- Whether an `f64` bit pattern denotes (positive or negative) zero. -/
def f64IsZero (f : Nat) : Bool := f64Exp f = 0 && f64Man f = 0

/-- Exact widening conversion `f16 -> f64` on bit patterns
(`f64::from(half::f16)`); NaN payloads are shifted to the top of the
mantissa field, preserving the quiet bit. -/
def widen16 (h : Nat) : Nat :=
  let s := h / 2 ^ 15 % 2
  let e := h / 2 ^ 10 % 2 ^ 5
  let m := h % 2 ^ 10
  if e = 31 then s * 2 ^ 63 + 2047 * 2 ^ 52 + m * 2 ^ 42
  else if e = 0 then
    if m = 0 then s * 2 ^ 63
    else
      let l := bitlen m
      s * 2 ^ 63 + (l + 998) * 2 ^ 52 + (m - 2 ^ (l - 1)) * 2 ^ (53 - l)
  else s * 2 ^ 63 + (e + 1008) * 2 ^ 52 + m * 2 ^ 42

/-- Exact widening conversion `f32 -> f64` on bit patterns
(Rust `f as f64` for `f : f32`). -/
def widen32 (w : Nat) : Nat :=
  let s := w / 2 ^ 31 % 2
  let e := w / 2 ^ 23 % 2 ^ 8
  let m := w % 2 ^ 23
  if e = 255 then s * 2 ^ 63 + 2047 * 2 ^ 52 + m * 2 ^ 29
  else if e = 0 then
    if m = 0 then s * 2 ^ 63
    else
      let l := bitlen m
      s * 2 ^ 63 + (l + 873) * 2 ^ 52 + (m - 2 ^ (l - 1)) * 2 ^ (53 - l)
  else s * 2 ^ 63 + (e + 896) * 2 ^ 52 + m * 2 ^ 29

/-- IEEE-754 equality of two `f64` bit patterns (Rust `==` on `f64`):
false when either side is NaN, true for `+0.0 == -0.0`. -/
def fleq (a b : Nat) : Bool :=
  if f64IsNan a || f64IsNan b then false
  else if f64IsZero a && f64IsZero b then true
  else a = b

/-- Modelled from the spec: candidate `f16` bit pattern for a finite `f64`.
The external `half` crate's `f16::from_f64` is not part of src/; per the
spec the encoder "selects the narrowest IEEE width that exactly round-trips
the value", so only the exact case matters: when the value is exactly
representable as an `f16` this returns its bit pattern (sign-preserving),
and otherwise it returns a pattern that fails the encoder's round-trip
guard, which is all the guard observes. -/
def cand16 (f : Nat) : Nat :=
  let s := f64Sign f
  let e := f64Exp f
  let man := f64Man f
  if e = 0 && man = 0 then s * 2 ^ 15
  else
    let M := if e = 0 then man else 2 ^ 52 + man
    let K : Int := (if e = 0 then 1 else (e : Int)) - 1075
    let t := ctz M
    let O := M / 2 ^ t
    let K2 : Int := K + t
    let E : Int := ((bitlen O - 1 : Nat) : Int) + K2
    if -14 ≤ E ∧ E ≤ 15 ∧ bitlen O ≤ 11 then
      s * 2 ^ 15 + (E + 15).toNat * 2 ^ 10 + (O * 2 ^ (11 - bitlen O) - 2 ^ 10)
    else if E < -14 ∧ -24 ≤ K2 then
      s * 2 ^ 15 + O * 2 ^ (K2 + 24).toNat
    else s * 2 ^ 15

/-- Modelled from the spec: candidate `f32` bit pattern for a finite `f64`
(Rust `f as f32` in the encoder's exact-round-trip guard); see `cand16`. -/
def cand32 (f : Nat) : Nat :=
  let s := f64Sign f
  let e := f64Exp f
  let man := f64Man f
  if e = 0 && man = 0 then s * 2 ^ 31
  else
    let M := if e = 0 then man else 2 ^ 52 + man
    let K : Int := (if e = 0 then 1 else (e : Int)) - 1075
    let t := ctz M
    let O := M / 2 ^ t
    let K2 : Int := K + t
    let E : Int := ((bitlen O - 1 : Nat) : Int) + K2
    if -126 ≤ E ∧ E ≤ 127 ∧ bitlen O ≤ 24 then
      s * 2 ^ 31 + (E + 127).toNat * 2 ^ 23 + (O * 2 ^ (24 - bitlen O) - 2 ^ 23)
    else if E < -126 ∧ -149 ≤ K2 then
      s * 2 ^ 31 + O * 2 ^ (K2 + 149).toNat
    else s * 2 ^ 31

/-- The encoder's half-precision attempt: succeeds exactly when widening the
candidate back to `f64` compares IEEE-equal to the input
(`f64::from(f_16) == f` in `cbor/ser.rs`). -/
def tryNarrow16 (f : Nat) : Option Nat :=
  if fleq (widen16 (cand16 f)) f then some (cand16 f) else none

/-- The encoder's single-precision attempt (`f64::from(f_32) == f`). -/
def tryNarrow32 (f : Nat) : Option Nat :=
  if fleq (widen32 (cand32 f)) f then some (cand32 f) else none

/-- The `ValueView::F64` arms of `to_writer` in `cbor/ser.rs`: fixed
half-precision patterns for infinities and NaN, otherwise the narrowest of
the half / single / double forms that round-trips exactly. -/
def floatBytes (f : Nat) : List Nat :=
  if f64IsInf f then
    if f64IsSignPos f then [0xf9, 0x7c, 0x00] else [0xf9, 0xfc, 0x00]
  else if f64IsNan f then [0xf9, 0x7e, 0x00]
  else
    match tryNarrow16 f with
    | some h16 => 0xf9 :: be2 h16
    | none =>
      match tryNarrow32 f with
      | some w32 => 0xfa :: be4 w32
      | none => 0xfb :: be8 f

/-- The dynamic CBOR `Value` enum of `cbor/value.rs`.  Rust `String` /
`Vec<u8>` payloads are modelled as their byte lists; `f64` as its bit
pattern; `i128` as an unbounded `Int` (the Rust-representable range is
imposed by the well-formedness predicates); the sorted `Object` map as its
ordered entry list (the `BTreeMap` invariant is likewise a predicate). -/
inductive Value where
  | null
  | bool (b : Bool)
  | integer (i : Int)
  | float (f : Nat)
  | bytes (bs : List Nat)
  | text (ts : List Nat)
  | array (xs : List Value)
  | map (es : List (Value × Value))
  | tag (t : Nat) (v : Value)

/-- View of one `u8` element of a streamed `Vec<u8>` as its
`ValueView::Int` fragment. -/
def byteToValue (b : Nat) : Value := .integer (b : Int)

/-- The `ValueView::Int` arm of `to_writer`: major 0 for `0..=u64::MAX`,
major 1 with magnitude `-(i+1)` for `-2^64..=-1`, an error otherwise. -/
def intBytes (i : Int) : Except SErr (List Nat) :=
  if -(2 ^ 64 : Int) ≤ i ∧ i ≤ -1 then writeU64 1 (-(i + 1)).toNat
  else if 0 ≤ i ∧ i ≤ (2 ^ 64 - 1 : Int) then writeU64 0 i.toNat
  else .error .intRange

/-- Byte-wise encoding of a `Vec<u8>` streamed through `stream_slice`:
each `u8` element is serialized through its `ValueView::Int` view. -/
def encByteSeq : List Nat → Except SErr (List Nat)
  | [] => .ok []
  | b :: rest => do
    let x ← intBytes (b : Int)
    let xs ← encByteSeq rest
    .ok (x ++ xs)

mutual

/-- Structural denotation of `cbor::to_vec` on a `Value` tree: the byte
sequence the iterative `to_writer` loop of `cbor/ser.rs` emits for one
`Single(value)` layer and everything it pushes.  Note that `Value::Bytes`
goes through `private::stream_slice`, i.e. is emitted as a major-4 sequence
of integers, not as a major-2 byte string; and `Value::Tag` hits the
`unimplemented!` panic in `view()`. -/
def encodeValue : Value → Except SErr (List Nat)
  | .null => .ok [0xf6]
  | .bool b => .ok [0xf4 + (if b then 1 else 0)]
  | .integer i => intBytes i
  | .float f => .ok (floatBytes f)
  | .bytes bs => do
    let h ← writeU64 4 bs.length
    let body ← encByteSeq bs
    .ok (h ++ body)
  | .text ts => do
    let h ← writeU64 3 ts.length
    .ok (h ++ ts)
  | .array xs => do
    let h ← writeU64 4 xs.length
    let body ← encodeList xs
    .ok (h ++ body)
  | .map es => do
    let h ← writeU64 5 es.length
    let body ← encodeEntries es
    .ok (h ++ body)
  | .tag _ _ => .error .panicUnimplemented

/-- Concatenated encodings of the elements of an open sequence layer. -/
def encodeList : List Value → Except SErr (List Nat)
  | [] => .ok []
  | x :: rest => do
    let a ← encodeValue x
    let b ← encodeList rest
    .ok (a ++ b)

/-- Concatenated key/value encodings of an open map layer (the sorted
`Object` iterator yields the key's bytes, then the value's). -/
def encodeEntries : List (Value × Value) → Except SErr (List Nat)
  | [] => .ok []
  | (k, v) :: rest => do
    let a ← encodeValue k
    let b ← encodeValue v
    let c ← encodeEntries rest
    .ok (a ++ b ++ c)

end

mutual

/-- Number of iterations the `to_writer` loop spends on one single-value
layer, children included. -/
def vSize : Value → Nat
  | .array xs => 1 + lSize xs
  | .map es => 1 + eSize es
  | .bytes bs => 1 + (1 + 2 * bs.length)
  | _ => 1

/-- Loop iterations spent draining an open sequence layer. -/
def lSize : List Value → Nat
  | [] => 1
  | x :: rest => 1 + vSize x + lSize rest

/-- Loop iterations spent draining an open map layer. -/
def eSize : List (Value × Value) → Nat
  | [] => 1
  | (k, v) :: rest => 1 + vSize k + vSize v + eSize rest

end

/-- One layer of the explicit stack of `to_writer` in `cbor/ser.rs`. -/
inductive Layer where
  | single (v : Value)
  | seqL (xs : List Value)
  | mapL (es : List (Value × Value))

/-- Iterations needed for a layer. -/
def layerSize : Layer → Nat
  | .single v => vSize v
  | .seqL xs => lSize xs
  | .mapL es => eSize es

/-- Iterations needed for a whole stack. -/
def stackSize (S : List Layer) : Nat := (S.map layerSize).sum

/-- The iterative serialization engine of `cbor/ser.rs` (`to_writer`): an
explicit stack of layers, a fuel counter standing for the loop trip count.
Popping a single value writes its primitive bytes, or writes the container
header and pushes the opened sequence/map iterator; an iterator layer
yields its next child (for maps: the value then the key, so that the key
is serialized first) or is popped when exhausted. -/
def toWriterRun : Nat → List Layer → List Nat → Except SErr (List Nat)
  | _, [], out => .ok out
  | 0, _ :: _, _ => .error .fuel
  | fuel + 1, .single v :: S, out =>
    match v with
    | .null => toWriterRun fuel S (out ++ [0xf6])
    | .bool b => toWriterRun fuel S (out ++ [0xf4 + (if b then 1 else 0)])
    | .integer i =>
      match intBytes i with
      | .ok bsI => toWriterRun fuel S (out ++ bsI)
      | .error e => .error e
    | .float f => toWriterRun fuel S (out ++ floatBytes f)
    | .bytes bs =>
      match writeU64 4 bs.length with
      | .ok h => toWriterRun fuel (.seqL (bs.map byteToValue) :: S) (out ++ h)
      | .error e => .error e
    | .text ts =>
      match writeU64 3 ts.length with
      | .ok h => toWriterRun fuel S (out ++ h ++ ts)
      | .error e => .error e
    | .array xs =>
      match writeU64 4 xs.length with
      | .ok h => toWriterRun fuel (.seqL xs :: S) (out ++ h)
      | .error e => .error e
    | .map es =>
      match writeU64 5 es.length with
      | .ok h => toWriterRun fuel (.mapL es :: S) (out ++ h)
      | .error e => .error e
    | .tag _ _ => .error .panicUnimplemented
  | fuel + 1, .seqL [] :: S, out => toWriterRun fuel S out
  | fuel + 1, .seqL (x :: rest) :: S, out =>
    toWriterRun fuel (.single x :: .seqL rest :: S) out
  | fuel + 1, .mapL [] :: S, out => toWriterRun fuel S out
  | fuel + 1, .mapL ((k, v) :: rest) :: S, out =>
    toWriterRun fuel (.single k :: .single v :: .mapL rest :: S) out

/-- Model of `cbor::to_vec`: run the iterative writer on a fresh output
buffer with the root value as the only layer. -/
def toVec (v : Value) : Except SErr (List Nat) :=
  toWriterRun (vSize v) [.single v] []

/-- Denotation of one stack layer as the bytes it will contribute. -/
def denLayer : Layer → Except SErr (List Nat)
  | .single v => encodeValue v
  | .seqL xs => encodeList xs
  | .mapL es => encodeEntries es

/-- Denotation of a whole writer stack appended onto an output prefix. -/
def denStack : List Layer → List Nat → Except SErr (List Nat)
  | [], out => .ok out
  | L :: S, out =>
    match denLayer L with
    | .ok bs => denStack S (out ++ bs)
    | .error e => .error e

theorem vSize_pos (v : Value) : 1 ≤ vSize v := by
  cases v <;> simp [vSize]

theorem lSize_pos (xs : List Value) : 1 ≤ lSize xs := by
  cases xs with
  | nil => simp [lSize]
  | cons x r => simp only [lSize]; omega

theorem eSize_pos (es : List (Value × Value)) : 1 ≤ eSize es := by
  cases es with
  | nil => simp [eSize]
  | cons e rest => rcases e with ⟨k, v⟩; simp only [eSize]; omega

theorem layerSize_pos (L : Layer) : 1 ≤ layerSize L := by
  cases L with
  | single v => exact vSize_pos v
  | seqL xs => exact lSize_pos xs
  | mapL es => exact eSize_pos es

theorem stackSize_nil : stackSize [] = 0 := rfl

theorem stackSize_cons (L : Layer) (S : List Layer) :
    stackSize (L :: S) = layerSize L + stackSize S := by
  simp [stackSize]

theorem lSize_map_byteToValue (bs : List Nat) :
    lSize (bs.map byteToValue) = 2 * bs.length + 1 := by
  induction bs with
  | nil => simp [lSize]
  | cons b rest ih => simp [lSize, vSize, byteToValue, ih]; omega

theorem encByteSeq_eq (bs : List Nat) :
    encByteSeq bs = encodeList (bs.map byteToValue) := by
  induction bs with
  | nil => simp [encByteSeq, encodeList]
  | cons b rest ih => simp [encByteSeq, encodeList, encodeValue, byteToValue, ih]

/-- Adequacy of the iterative writer: with enough fuel for the stack, the
machine computes the concatenated denotations of its layers. -/
theorem toWriterRun_den :
    ∀ n S out, stackSize S ≤ n → toWriterRun n S out = denStack S out := by
  intro n
  induction n using Nat.strong_induction_on with
  | _ n ih =>
    intro S out hle
    match S with
    | [] => cases n <;> rfl
    | L :: S' =>
      match n with
      | 0 =>
        exfalso
        have h1 := layerSize_pos L
        rw [stackSize_cons] at hle
        omega
      | m + 1 =>
        rw [stackSize_cons] at hle
        have hmlt : m < m + 1 := Nat.lt_succ_self m
        cases L with
        | single v =>
          cases v with
          | null =>
            have hs : stackSize S' ≤ m := by simp [layerSize, vSize] at hle; omega
            calc toWriterRun (m + 1) (.single .null :: S') out
                = toWriterRun m S' (out ++ [0xf6]) := rfl
              _ = denStack S' (out ++ [0xf6]) := ih m hmlt S' _ hs
              _ = denStack (.single .null :: S') out := rfl
          | bool b =>
            have hs : stackSize S' ≤ m := by simp [layerSize, vSize] at hle; omega
            calc toWriterRun (m + 1) (.single (.bool b) :: S') out
                = toWriterRun m S' (out ++ [0xf4 + (if b then 1 else 0)]) := rfl
              _ = denStack S' (out ++ [0xf4 + (if b then 1 else 0)]) :=
                  ih m hmlt S' _ hs
              _ = denStack (.single (.bool b) :: S') out := rfl
          | integer i =>
            have hs : stackSize S' ≤ m := by simp [layerSize, vSize] at hle; omega
            cases hw : intBytes i with
            | ok bsI =>
              calc toWriterRun (m + 1) (.single (.integer i) :: S') out
                  = toWriterRun m S' (out ++ bsI) := by
                    simp [toWriterRun, hw]
                _ = denStack S' (out ++ bsI) := ih m hmlt S' _ hs
                _ = denStack (.single (.integer i) :: S') out := by
                    simp [denStack, denLayer, encodeValue, hw]
            | error e =>
              simp [toWriterRun, denStack, denLayer, encodeValue, hw]
          | float f =>
            have hs : stackSize S' ≤ m := by simp [layerSize, vSize] at hle; omega
            calc toWriterRun (m + 1) (.single (.float f) :: S') out
                = toWriterRun m S' (out ++ floatBytes f) := rfl
              _ = denStack S' (out ++ floatBytes f) := ih m hmlt S' _ hs
              _ = denStack (.single (.float f) :: S') out := rfl
          | text ts =>
            have hs : stackSize S' ≤ m := by simp [layerSize, vSize] at hle; omega
            cases hw : writeU64 3 ts.length with
            | ok h =>
              calc toWriterRun (m + 1) (.single (.text ts) :: S') out
                  = toWriterRun m S' (out ++ h ++ ts) := by
                    simp [toWriterRun, hw]
                _ = denStack S' (out ++ h ++ ts) := ih m hmlt S' _ hs
                _ = denStack (.single (.text ts) :: S') out := by
                    simp only [denStack, denLayer, encodeValue, hw,
                      List.append_assoc] <;> rfl
            | error e =>
              simp only [toWriterRun, denStack, denLayer, encodeValue, hw] <;> rfl
          | bytes bs =>
            cases hw : writeU64 4 bs.length with
            | ok h =>
              have hs : stackSize (Layer.seqL (bs.map byteToValue) :: S') ≤ m := by
                rw [stackSize_cons]
                simp only [layerSize, lSize_map_byteToValue]
                simp [layerSize, vSize] at hle
                omega
              calc toWriterRun (m + 1) (.single (.bytes bs) :: S') out
                  = toWriterRun m (.seqL (bs.map byteToValue) :: S') (out ++ h) := by
                    simp [toWriterRun, hw]
                _ = denStack (.seqL (bs.map byteToValue) :: S') (out ++ h) :=
                    ih m hmlt _ _ hs
                _ = denStack (.single (.bytes bs) :: S') out := by
                    simp only [denStack, denLayer, encodeValue, encByteSeq_eq, hw]
                    cases encodeList (bs.map byteToValue) with
                    | ok body => simp only [List.append_assoc] <;> rfl
                    | error e => rfl
            | error e =>
              simp only [toWriterRun, denStack, denLayer, encodeValue, hw,
                encByteSeq_eq] <;> rfl
          | array xs =>
            cases hw : writeU64 4 xs.length with
            | ok h =>
              have hs : stackSize (Layer.seqL xs :: S') ≤ m := by
                rw [stackSize_cons]
                simp only [layerSize]
                simp [layerSize, vSize] at hle
                omega
              calc toWriterRun (m + 1) (.single (.array xs) :: S') out
                  = toWriterRun m (.seqL xs :: S') (out ++ h) := by
                    simp [toWriterRun, hw]
                _ = denStack (.seqL xs :: S') (out ++ h) := ih m hmlt _ _ hs
                _ = denStack (.single (.array xs) :: S') out := by
                    simp only [denStack, denLayer, encodeValue, hw]
                    cases encodeList xs with
                    | ok body => simp only [List.append_assoc] <;> rfl
                    | error e => rfl
            | error e =>
              simp only [toWriterRun, denStack, denLayer, encodeValue, hw] <;> rfl
          | map es =>
            cases hw : writeU64 5 es.length with
            | ok h =>
              have hs : stackSize (Layer.mapL es :: S') ≤ m := by
                rw [stackSize_cons]
                simp only [layerSize]
                simp [layerSize, vSize] at hle
                omega
              calc toWriterRun (m + 1) (.single (.map es) :: S') out
                  = toWriterRun m (.mapL es :: S') (out ++ h) := by
                    simp [toWriterRun, hw]
                _ = denStack (.mapL es :: S') (out ++ h) := ih m hmlt _ _ hs
                _ = denStack (.single (.map es) :: S') out := by
                    simp only [denStack, denLayer, encodeValue, hw]
                    cases encodeEntries es with
                    | ok body => simp only [List.append_assoc] <;> rfl
                    | error e => rfl
            | error e =>
              simp only [toWriterRun, denStack, denLayer, encodeValue, hw] <;> rfl
          | tag t v => rfl
        | seqL xs =>
          cases xs with
          | nil =>
            have hs : stackSize S' ≤ m := by simp [layerSize, lSize] at hle; omega
            calc toWriterRun (m + 1) (.seqL [] :: S') out
                = toWriterRun m S' out := rfl
              _ = denStack S' out := ih m hmlt S' _ hs
              _ = denStack (.seqL [] :: S') out := by
                  simp [denStack, denLayer, encodeList]
          | cons x rest =>
            have hs : stackSize (Layer.single x :: Layer.seqL rest :: S') ≤ m := by
              rw [stackSize_cons, stackSize_cons]
              simp only [layerSize]
              simp [layerSize, lSize] at hle
              omega
            calc toWriterRun (m + 1) (.seqL (x :: rest) :: S') out
                = toWriterRun m (.single x :: .seqL rest :: S') out := rfl
              _ = denStack (.single x :: .seqL rest :: S') out := ih m hmlt _ _ hs
              _ = denStack (.seqL (x :: rest) :: S') out := by
                  simp only [denStack, denLayer, encodeList]
                  cases encodeValue x with
                  | ok a =>
                    cases encodeList rest with
                    | ok b => simp only [denStack, List.append_assoc] <;> rfl
                    | error e => rfl
                  | error e => rfl
        | mapL es =>
          cases es with
          | nil =>
            have hs : stackSize S' ≤ m := by simp [layerSize, eSize] at hle; omega
            calc toWriterRun (m + 1) (.mapL [] :: S') out
                = toWriterRun m S' out := rfl
              _ = denStack S' out := ih m hmlt S' _ hs
              _ = denStack (.mapL [] :: S') out := by
                  simp [denStack, denLayer, encodeEntries]
          | cons e rest =>
            rcases e with ⟨k, v⟩
            have hs : stackSize
                (Layer.single k :: Layer.single v :: Layer.mapL rest :: S') ≤ m := by
              rw [stackSize_cons, stackSize_cons, stackSize_cons]
              simp only [layerSize]
              simp [layerSize, eSize] at hle
              omega
            calc toWriterRun (m + 1) (.mapL ((k, v) :: rest) :: S') out
                = toWriterRun m (.single k :: .single v :: .mapL rest :: S') out :=
                  rfl
              _ = denStack (.single k :: .single v :: .mapL rest :: S') out :=
                  ih m hmlt _ _ hs
              _ = denStack (.mapL ((k, v) :: rest) :: S') out := by
                  simp only [denStack, denLayer, encodeEntries]
                  cases encodeValue k with
                  | ok a =>
                    cases encodeValue v with
                    | ok b =>
                      cases encodeEntries rest with
                      | ok c => simp only [denStack, List.append_assoc] <;> rfl
                      | error e => rfl
                    | error e => rfl
                  | error e => rfl

/-- The public `cbor::to_vec` agrees with the structural denotation. -/
theorem toVec_eq (v : Value) : toVec v = encodeValue v := by
  unfold toVec
  rw [toWriterRun_den (vSize v) [.single v] []
      (by rw [stackSize_cons, stackSize_nil]; simp [layerSize])]
  show (match encodeValue v with
        | .ok bs => denStack [] ([] ++ bs)
        | .error e => (.error e : Except SErr (List Nat))) = encodeValue v
  cases encodeValue v with
  | ok bs => simp [denStack]
  | error e => rfl

/-- The `Value::major_type` helper of `cbor/value.rs`: non-negative
integers get 0, negative ones 1; tags 6; null, bool and float share 7. -/
def majorType : Value → Nat
  | .null => 7
  | .bool _ => 7
  | .integer v => if 0 ≤ v then 0 else 1
  | .tag _ _ => 6
  | .float _ => 7
  | .bytes _ => 2
  | .text _ => 3
  | .array _ => 4
  | .map _ => 5

/-- The expensive fallback of `Ord for Value`: compare the canonical byte
serializations.  The source unwraps the serializations with
`.expect("self is serializable")`, so an unserializable operand is a panic,
modelled as `none`. -/
def cmpFallback (a b : Value) : Option Ordering :=
  match toVec a, toVec b with
  | .ok ba, .ok bb => some (listCompare ba bb)
  | _, _ => none

/-- The arms of `cmp` in `cbor/value.rs` that run once the major types
are known to agree: integers by absolute magnitude, byte / text / array /
map payloads first by length, byte and text payloads lexically, anything
else (and remaining ties) by comparing serializations. -/
def cmpSameMajor (a b : Value) : Option Ordering :=
  match a, b with
  | .integer x, .integer y => some (ncmp x.natAbs y.natAbs)
  | .bytes x, .bytes y =>
    some (if x.length ≠ y.length then ncmp x.length y.length
          else listCompare x y)
  | .text x, .text y =>
    some (if x.length ≠ y.length then ncmp x.length y.length
          else listCompare x y)
  | .array x, .array y =>
    if x.length ≠ y.length then some (ncmp x.length y.length)
    else cmpFallback (.array x) (.array y)
  | .map x, .map y =>
    if x.length ≠ y.length then some (ncmp x.length y.length)
    else cmpFallback (.map x) (.map y)
  | a, b => cmpFallback a b

/-- The canonical comparator `Ord for Value` (`cmp` in `cbor/value.rs`):
smaller major type first, then the same-major arms. -/
def cmpValue (a b : Value) : Option Ordering :=
  if majorType a ≠ majorType b then some (ncmp (majorType a) (majorType b))
  else cmpSameMajor a b

mutual

/-- Container-nesting height of a value (a scalar has height 1). -/
def heightV : Value → Nat
  | .array xs => 1 + heightL xs
  | .map es => 1 + heightE es
  | .tag _ v => 1 + heightV v
  | _ => 1

/-- Maximal height among sequence elements. -/
def heightL : List Value → Nat
  | [] => 0
  | x :: rest => max (heightV x) (heightL rest)

/-- Maximal height among map keys and values. -/
def heightE : List (Value × Value) → Nat
  | [] => 0
  | (k, v) :: rest => max (max (heightV k) (heightV v)) (heightE rest)

end

/-- RFC 3629 UTF-8 validity of a byte sequence, as checked by Rust
`core::str::from_utf8` in the decoder. -/
def utf8Valid : List Nat → Bool
  | [] => true
  | b :: rest =>
    if b < 0x80 then utf8Valid rest
    else if 0xC2 ≤ b ∧ b ≤ 0xDF then
      match rest with
      | c1 :: r => (0x80 ≤ c1 && c1 ≤ 0xBF) && utf8Valid r
      | _ => false
    else if b = 0xE0 then
      match rest with
      | c1 :: c2 :: r =>
        (0xA0 ≤ c1 && c1 ≤ 0xBF) && (0x80 ≤ c2 && c2 ≤ 0xBF) && utf8Valid r
      | _ => false
    else if (0xE1 ≤ b ∧ b ≤ 0xEC) ∨ b = 0xEE ∨ b = 0xEF then
      match rest with
      | c1 :: c2 :: r =>
        (0x80 ≤ c1 && c1 ≤ 0xBF) && (0x80 ≤ c2 && c2 ≤ 0xBF) && utf8Valid r
      | _ => false
    else if b = 0xED then
      match rest with
      | c1 :: c2 :: r =>
        (0x80 ≤ c1 && c1 ≤ 0x9F) && (0x80 ≤ c2 && c2 ≤ 0xBF) && utf8Valid r
      | _ => false
    else if b = 0xF0 then
      match rest with
      | c1 :: c2 :: c3 :: r =>
        (0x90 ≤ c1 && c1 ≤ 0xBF) && (0x80 ≤ c2 && c2 ≤ 0xBF) &&
          (0x80 ≤ c3 && c3 ≤ 0xBF) && utf8Valid r
      | _ => false
    else if 0xF1 ≤ b ∧ b ≤ 0xF3 then
      match rest with
      | c1 :: c2 :: c3 :: r =>
        (0x80 ≤ c1 && c1 ≤ 0xBF) && (0x80 ≤ c2 && c2 ≤ 0xBF) &&
          (0x80 ≤ c3 && c3 ≤ 0xBF) && utf8Valid r
      | _ => false
    else if b = 0xF4 then
      match rest with
      | c1 :: c2 :: c3 :: r =>
        (0x80 ≤ c1 && c1 ≤ 0x8F) && (0x80 ≤ c2 && c2 ≤ 0xBF) &&
          (0x80 ≤ c3 && c3 ≤ 0xBF) && utf8Valid r
      | _ => false
    else false

mutual

/-- Rust-side well-formedness of a modelled `Value`: what is guaranteed by
the Rust types (`u8` payload bytes, `usize` lengths, UTF-8 `String`s, the
sorted-and-deduplicated `BTreeMap` key invariant expressed through
`cmpValue`) together with serializability (integers in the CBOR range, no
`Value::Tag`). -/
def wfV : Value → Prop
  | .null => True
  | .bool _ => True
  | .integer i => -(2 ^ 64 : Int) ≤ i ∧ i ≤ (2 ^ 64 - 1 : Int)
  | .float f => f < 2 ^ 64
  | .bytes bs => bs.length < 2 ^ 64 ∧ ∀ b ∈ bs, b < 256
  | .text ts => ts.length < 2 ^ 64 ∧ (∀ b ∈ ts, b < 256) ∧ utf8Valid ts = true
  | .array xs => xs.length < 2 ^ 64 ∧ wfL xs
  | .map es =>
    es.length < 2 ^ 64 ∧ wfE es ∧
      es.Pairwise (fun e1 e2 => cmpValue e1.1 e2.1 = some .lt)
  | .tag _ _ => False

/-- Well-formedness of every element of a sequence. -/
def wfL : List Value → Prop
  | [] => True
  | x :: rest => wfV x ∧ wfL rest

/-- Well-formedness of every key and value of a map. -/
def wfE : List (Value × Value) → Prop
  | [] => True
  | (k, v) :: rest => wfV k ∧ wfV v ∧ wfE rest

end

/-- Normalization a float undergoes in an encode-decode round trip: every
NaN is collapsed to the canonical quiet NaN the decoder reads back from the
encoder's fixed `0xf9 0x7e 0x00` pattern; other floats are unchanged. -/
def canonF (f : Nat) : Nat :=
  if f64IsNan f then 0x7ff8000000000000 else f

mutual

/-- The value `from_slice` reconstructs from `to_vec`'s output: floats are
NaN-normalized; everything else (on the `Bytes`-free, well-formed fragment)
is rebuilt identically. -/
def canonV : Value → Value
  | .null => .null
  | .bool b => .bool b
  | .integer i => .integer i
  | .float f => .float (canonF f)
  | .bytes bs => .bytes bs
  | .text ts => .text ts
  | .array xs => .array (canonL xs)
  | .map es => .map (canonE es)
  | .tag t v => .tag t (canonV v)

/-- Pointwise normalization of sequence elements. -/
def canonL : List Value → List Value
  | [] => []
  | x :: rest => canonV x :: canonL rest

/-- Pointwise normalization of map entries. -/
def canonE : List (Value × Value) → List (Value × Value)
  | [] => []
  | (k, v) :: rest => (canonV k, canonV v) :: canonE rest

end

mutual

/-- Absence of the `Value::Bytes` variant anywhere in a value: the fragment
on which the decode-of-encode round trip can reproduce the variant (a
`Bytes` value is emitted as a major-4 integer sequence and read back as an
`Array`). -/
def bytesFreeV : Value → Prop
  | .bytes _ => False
  | .array xs => bytesFreeL xs
  | .map es => bytesFreeE es
  | .tag _ v => bytesFreeV v
  | _ => True

/-- Bytes-freedom of every sequence element. -/
def bytesFreeL : List Value → Prop
  | [] => True
  | x :: rest => bytesFreeV x ∧ bytesFreeL rest

/-- Bytes-freedom of every map key and value. -/
def bytesFreeE : List (Value × Value) → Prop
  | [] => True
  | (k, v) :: rest => bytesFreeV k ∧ bytesFreeV v ∧ bytesFreeE rest

end

/-- Errors of the CBOR deserialization path (`cbor/de.rs`).  The source
collapses all of these to `Option::None` / the unit `crate::Error`; the
constructors record which failure site fired, mirroring the distinct
`err!` debug messages (and the absence of one for plain truncation). -/
inductive DErr where
  /-- Short read: `bytes.next()?`, `get(0)?`, `get(len..)?` or
  `multi_bytes!` ran out of input. -/
  | truncated
  /-- The `err!("Incorrect integer tag. ...")` arm of `parse_u64`. -/
  | badIntTag
  /-- The `err!` arm of an indefinite-length string loop (chunk that is
  neither a break marker nor a known-length byte slice). -/
  | badChunk
  /-- The chunk or string failed `core::str::from_utf8`. -/
  | badUtf8
  /-- The `Value` visitor's `int` method: integer out of the CBOR range. -/
  | intRange
  /-- The depth guard of `recurse_checked`. -/
  | depthLimit
  /-- Major type 6: custom tags cannot be deserialized. -/
  | customTag
  /-- The `err!("Incorrect tag associated to major 7. ...")` arm. -/
  | major7
  /-- Trailing bytes after a complete top-level value (`from_slice`). -/
  | trailing
  /-- The `BTreeMap` insertion of a decoded map key panicked inside
  `Ord for Value` (an unserializable key); never reached by decoded
  values, kept so that the model does not hide the panic. -/
  | panicOrd
  /-- Fuel exhaustion of the model; `from_slice` supplies fuel proved
  sufficient below. -/
  | fuel
deriving DecidableEq

/-- Split a byte into the 3-bit major type and 5-bit selector
(`major_and_tag` in `cbor/de.rs`, `byte >> 5` and `byte & 0x1f` on `u8`). -/
def majorOf (b : Nat) : Nat := b / 32 % 8

/-- The 5-bit selector of a tag byte. -/
def tagOf (b : Nat) : Nat := b % 32

/-- Read exactly `n` bytes (the `multi_bytes!` helper). -/
def readN : Nat → List Nat → Option (List Nat × List Nat)
  | 0, bs => some ([], bs)
  | _ + 1, [] => none
  | n + 1, b :: bs => (readN n bs).map (fun p => (b :: p.1, p.2))

/-- Model of `parse_u64` in `cbor/de.rs`: immediate selector 0-23, or 1, 2,
4 or 8 big-endian extension bytes; any other selector is an error. -/
def parseU64 (t : Nat) (bs : List Nat) : Except DErr (Nat × List Nat) :=
  if t ≤ 0x17 then .ok (t, bs)
  else if t = 0x18 then
    match bs with
    | b :: rest => .ok (b, rest)
    | [] => .error .truncated
  else if t = 0x19 then
    match readN 2 bs with
    | some p => .ok (beVal p.1, p.2)
    | none => .error .truncated
  else if t = 0x1a then
    match readN 4 bs with
    | some p => .ok (beVal p.1, p.2)
    | none => .error .truncated
  else if t = 0x1b then
    match readN 8 bs with
    | some p => .ok (beVal p.1, p.2)
    | none => .error .truncated
  else .error .badIntTag

/-- Model of `parse_known_len_byte_seq`: parse the length, then split it
off the remaining input (`slice.get(len..)?`). -/
def parseKnownLen (t : Nat) (bs : List Nat) : Except DErr (List Nat × List Nat) :=
  match parseU64 t bs with
  | .ok (len, rest) =>
    if rest.length < len then .error .truncated
    else .ok (rest.take len, rest.drop len)
  | .error e => .error e

/-- The indefinite-length string loops of `from_slice_impl`: accumulate
known-length chunks whose header byte has major type 2 (`major::BYTE_SLICE`
in both the byte-string and the text-string loop) until the break marker
`0xff` (which these loops do consume, via `bytes.next()`); in the
text-string loop (`checkUtf8 = true`) each chunk is UTF-8-validated. -/
def decodeChunks (checkUtf8 : Bool) : Nat → List Nat → List Nat →
    Except DErr (List Nat × List Nat)
  | 0, _, _ => .error .fuel
  | _ + 1, _, [] => .error .truncated
  | fuel + 1, acc, b :: rest =>
    if majorOf b = 7 ∧ tagOf b = 0x1f then .ok (acc, rest)
    else if majorOf b = 2 then
      match parseKnownLen (tagOf b) rest with
      | .ok (chunk, rest2) =>
        if checkUtf8 && !utf8Valid chunk then .error .badUtf8
        else decodeChunks checkUtf8 fuel (acc ++ chunk) rest2
      | .error e => .error e
    else .error .badChunk

/-- Model of `BTreeMap::<Value, Value>::insert` on the sorted entry list:
position found through `Ord for Value`; on an equal key the old key is
kept and the value replaced; a comparison panic propagates as `none`. -/
def btInsert : List (Value × Value) → Value → Value →
    Option (List (Value × Value))
  | [], k, v => some [(k, v)]
  | (k', v') :: rest, k, v =>
    match cmpValue k k' with
    | none => none
    | some .lt => some ((k, v) :: (k', v') :: rest)
    | some .eq => some ((k', v) :: rest)
    | some .gt => (btInsert rest k v).map (fun r => (k', v') :: r)

mutual

/-- Model of `from_slice_impl` in `cbor/de.rs`, specialized to the
`Value` visitor of `cbor/value.rs` (with the default `bytes` method of
`de::Visitor`, which feeds each byte as an integer into a fresh sequence,
because `Place<Value>` does not override `bytes`).  The second component
of the result is the thread-local depth counter value left behind.  The
`fuel` argument only bounds the model's recursion and is threaded so that
every nested call has strictly smaller `(fuel, rank, len)`. -/
def decodeV : Nat → List Nat → Nat → Except DErr (Value × List Nat) × Nat
  | 0, _, c => (.error .fuel, c)
  | _ + 1, [], c => (.error .truncated, c)
  | fuel + 1, b :: rest, c =>
    let m := majorOf b
    let t := tagOf b
    if m = 0 ∨ m = 1 then
      match parseU64 t rest with
      | .ok (v, rest2) =>
        let i : Int := if m = 1 then -((v : Int) + 1) else (v : Int)
        if -(2 ^ 64 : Int) ≤ i ∧ i ≤ (2 ^ 64 - 1 : Int)
        then (.ok (.integer i, rest2), c)
        else (.error .intRange, c)
      | .error e => (.error e, c)
    else if m = 2 then
      if t = 0x1f then
        match decodeChunks false fuel [] rest with
        | .ok (acc, rest2) => (.ok (.array (acc.map byteToValue), rest2), c)
        | .error e => (.error e, c)
      else
        match parseKnownLen t rest with
        | .ok (chunk, rest2) => (.ok (.array (chunk.map byteToValue), rest2), c)
        | .error e => (.error e, c)
    else if m = 3 then
      if t = 0x1f then
        match decodeChunks true fuel [] rest with
        | .ok (acc, rest2) => (.ok (.text acc, rest2), c)
        | .error e => (.error e, c)
      else
        match parseKnownLen t rest with
        | .ok (chunk, rest2) =>
          if utf8Valid chunk then (.ok (.text chunk, rest2), c)
          else (.error .badUtf8, c)
        | .error e => (.error e, c)
    else if m = 4 then
      if t = 0x1f then
        match decodeSeqIndef fuel [] rest c with
        | (.ok (xs, rest2), c2) => (.ok (.array xs, rest2), c2)
        | (.error e, c2) => (.error e, c2)
      else
        match parseU64 t rest with
        | .ok (len, rest2) =>
          match decodeSeqN fuel len [] rest2 c with
          | (.ok (xs, rest3), c2) => (.ok (.array xs, rest3), c2)
          | (.error e, c2) => (.error e, c2)
        | .error e => (.error e, c)
    else if m = 5 then
      if t = 0x1f then
        match decodeMapIndef fuel [] rest c with
        | (.ok (es, rest2), c2) => (.ok (.map es, rest2), c2)
        | (.error e, c2) => (.error e, c2)
      else
        match parseU64 t rest with
        | .ok (len, rest2) =>
          match decodeMapN fuel len [] rest2 c with
          | (.ok (es, rest3), c2) => (.ok (.map es, rest3), c2)
          | (.error e, c2) => (.error e, c2)
        | .error e => (.error e, c)
    else if m = 6 then (.error .customTag, c)
    else
      if t = 0x14 ∨ t = 0x15 then (.ok (.bool (t = 0x15), rest), c)
      else if t = 0x16 ∨ t = 0x17 then (.ok (.null, rest), c)
      else if t = 0x19 then
        match readN 2 rest with
        | some p => (.ok (.float (widen16 (beVal p.1)), p.2), c)
        | none => (.error .truncated, c)
      else if t = 0x1a then
        match readN 4 rest with
        | some p => (.ok (.float (widen32 (beVal p.1)), p.2), c)
        | none => (.error .truncated, c)
      else if t = 0x1b then
        match readN 8 rest with
        | some p => (.ok (.float (beVal p.1), p.2), c)
        | none => (.error .truncated, c)
      else (.error .major7, c)
termination_by fuel _ _ => (fuel, 0, 0)

/-- Model of `recurse_checked`: the thread-local counter is replaced by
its successor and the previous value compared against `MAX_DEPTH = 256`;
on either path the counter is decremented again before returning. -/
def recurseChecked (fuel : Nat) (bs : List Nat) (c : Nat) :
    Except DErr (Value × List Nat) × Nat :=
  if 256 < c then (.error .depthLimit, c + 1 - 1)
  else
    match decodeV fuel bs (c + 1) with
    | (r, s) => (r, s - 1)
termination_by (fuel, 1, 0)

/-- The definite-length sequence loop: decode `len` elements through
`recurse_checked`, appending each into the `ArrayBuilder`. -/
def decodeSeqN : Nat → Nat → List Value → List Nat → Nat →
    Except DErr (List Value × List Nat) × Nat
  | _, 0, acc, bs, c => (.ok (acc, bs), c)
  | fuel, len + 1, acc, bs, c =>
    match recurseChecked fuel bs c with
    | (.ok (x, rest), c2) => decodeSeqN fuel len (acc ++ [x]) rest c2
    | (.error e, c2) => (.error e, c2)
termination_by fuel len _ _ _ => (fuel, 2, len)

/-- The indefinite-length sequence loop: peek (`bytes.as_slice().get(0)?`)
for the break marker, which is left unconsumed on break (as in the
source), otherwise decode the next element. -/
def decodeSeqIndef : Nat → List Value → List Nat → Nat →
    Except DErr (List Value × List Nat) × Nat
  | 0, _, _, c => (.error .fuel, c)
  | _ + 1, _, [], c => (.error .truncated, c)
  | fuel + 1, acc, b :: rest, c =>
    if majorOf b = 7 ∧ tagOf b = 0x1f then (.ok (acc, b :: rest), c)
    else
      match recurseChecked (fuel + 1) (b :: rest) c with
      | (.ok (x, rest2), c2) => decodeSeqIndef fuel (acc ++ [x]) rest2 c2
      | (.error e, c2) => (.error e, c2)
termination_by fuel _ _ _ => (fuel, 2, 0)

/-- The definite-length map loop: decode a key and then its value through
`recurse_checked`, inserting the pair into the `ObjectBuilder`'s
`BTreeMap` (insertion happens one iteration later in the source via
`shift`, which is observationally the same for the final result). -/
def decodeMapN : Nat → Nat → List (Value × Value) → List Nat → Nat →
    Except DErr (List (Value × Value) × List Nat) × Nat
  | _, 0, acc, bs, c => (.ok (acc, bs), c)
  | fuel, len + 1, acc, bs, c =>
    match recurseChecked fuel bs c with
    | (.ok (k, rest), c2) =>
      match recurseChecked fuel rest c2 with
      | (.ok (v, rest2), c3) =>
        match btInsert acc k v with
        | some acc2 => decodeMapN fuel len acc2 rest2 c3
        | none => (.error .panicOrd, c3)
      | (.error e, c3) => (.error e, c3)
    | (.error e, c2) => (.error e, c2)
termination_by fuel len _ _ _ => (fuel, 2, len)

/-- The indefinite-length map loop; the break marker is peeked and, as in
the source, left unconsumed. -/
def decodeMapIndef : Nat → List (Value × Value) → List Nat → Nat →
    Except DErr (List (Value × Value) × List Nat) × Nat
  | 0, _, _, c => (.error .fuel, c)
  | _ + 1, _, [], c => (.error .truncated, c)
  | fuel + 1, acc, b :: rest, c =>
    if majorOf b = 7 ∧ tagOf b = 0x1f then (.ok (acc, b :: rest), c)
    else
      match recurseChecked (fuel + 1) (b :: rest) c with
      | (.ok (k, rest2), c2) =>
        match recurseChecked (fuel + 1) rest2 c2 with
        | (.ok (v, rest3), c3) =>
          match btInsert acc k v with
          | some acc2 => decodeMapIndef fuel acc2 rest3 c3
          | none => (.error .panicOrd, c3)
        | (.error e, c3) => (.error e, c3)
      | (.error e, c3) => (.error e, c3)
termination_by fuel _ _ _ => (fuel, 2, 0)

end

/-- Model of `cbor::from_slice` for the dynamic `Value` target: run the
recursive decoder from a zero depth counter, then fail on trailing bytes.
The fuel `bytes.length + 1` is sufficient: every recursion level and every
indefinite-length loop iteration consumes at least one input byte. -/
def fromSlice (bs : List Nat) : Except DErr Value :=
  match decodeV (bs.length + 1) bs 0 with
  | (.ok (v, rest), _) => if rest.isEmpty then .ok v else .error .trailing
  | (.error e, _) => .error e

/-! The JSON string escaper of `json/ser.rs` (`escape_str` and the
`ESCAPE` lookup table). -/

/-- The `ESCAPE` table of `json/ser.rs` as a function: entry 0 means the
byte passes through; `b't' / b'n' / ...` select a two-character escape;
`b'u' = 117` selects the `\u00XY` form.  Indices 0x00-0x1F hold `U`
except 0x08 (`BB`), 0x09 (`TT`), 0x0A (`NN`), 0x0C (`FF`), 0x0D (`RR`);
index 0x22 holds `QU`, index 0x5C holds `BS`; all others hold 0. -/
def escapeCode (b : Nat) : Nat :=
  if b = 0x08 then 98
  else if b = 0x09 then 116
  else if b = 0x0A then 110
  else if b = 0x0C then 102
  else if b = 0x0D then 114
  else if b < 0x20 then 117
  else if b = 0x22 then 34
  else if b = 0x5C then 92
  else 0

/-- One hexadecimal digit from `HEX_DIGITS = b"0123456789abcdef"`. -/
def hexDigit (d : Nat) : Nat := if d < 10 then 48 + d else 87 + d

/-- The bytes `escape_str` pushes for one escaped byte: a two-byte
backslash escape, or the six-byte `\u00XY` form for the remaining
control characters. -/
def escSeq (b : Nat) : List Nat :=
  let e := escapeCode b
  if e = 117 then [92, 117, 48, 48, hexDigit (b / 16 % 16), hexDigit (b % 16)]
  else [92, e]

/-- The chunked copying loop of `escape_str`: scan byte `i`, remembering in
`start` the beginning of the pending unescaped chunk; on an escaped byte
flush `value[start..i]` and the escape sequence; at the end flush
`value[start..]` if non-empty. -/
def escLoop (bytes : List Nat) (i start : Nat) (out : List Nat) : List Nat :=
  if h : i < bytes.length then
    let b := bytes.get ⟨i, h⟩
    if escapeCode b = 0 then escLoop bytes (i + 1) start out
    else
      escLoop bytes (i + 1) (i + 1)
        (out ++ (bytes.drop start).take (i - start) ++ escSeq b)
  else if start ≠ bytes.length then
    out ++ (bytes.drop start).take (bytes.length - start)
  else out
termination_by bytes.length - i

/-- Model of `escape_str` in `json/ser.rs` on the UTF-8 bytes of the input
string: opening quote, escaped body, closing quote. -/
def escapeStr (bytes : List Nat) : List Nat :=
  34 :: escLoop bytes 0 0 [] ++ [34]

/-- Per-byte denotation of the escaping loop: unescaped bytes pass
through alone, escaped ones become their escape sequence. -/
def escByteSpec (b : Nat) : List Nat :=
  if escapeCode b = 0 then [b] else escSeq b

theorem escLoop_spec (bytes : List Nat) :
    ∀ k i start out, bytes.length - i = k → start ≤ i → i ≤ bytes.length →
      (∀ j (hj : j < bytes.length), start ≤ j → j < i →
        escapeCode (bytes.get ⟨j, hj⟩) = 0) →
      escLoop bytes i start out =
        out ++ (bytes.drop start).take (i - start) ++
          (bytes.drop i).flatMap escByteSpec := by
  intro k
  induction k with
  | zero =>
    intro i start out hk hsi hil _
    have hi : i = bytes.length := by omega
    subst hi
    rw [escLoop]
    simp only [lt_irrefl, dite_false]
    by_cases hs : start = bytes.length
    · subst hs
      simp
    · simp [hs]
  | succ k ihk =>
    intro i start out hk hsi hil hun
    have hi : i < bytes.length := by omega
    rw [escLoop]
    simp only [hi, dite_true]
    by_cases he : escapeCode (bytes.get ⟨i, hi⟩) = 0
    · rw [if_pos he]
      rw [ihk (i + 1) start out (by omega) (by omega) (by omega)
          (by
            intro j hj hsj hji
            by_cases hcase : j < i
            · exact hun j hj hsj hcase
            · have : j = i := by omega
              subst this
              exact he)]
      have hdrop : bytes.drop i = bytes.get ⟨i, hi⟩ :: bytes.drop (i + 1) := by
        rw [List.drop_eq_get_cons hi]
      have htake : (bytes.drop start).take (i + 1 - start) =
          (bytes.drop start).take (i - start) ++ [bytes.get ⟨i, hi⟩] := by
        have h1 : i + 1 - start = (i - start) + 1 := by omega
        rw [h1, List.take_succ]
        congr 1
        have h2 : (bytes.drop start)[i - start]? = bytes[i]? := by
          rw [List.getElem?_drop]
          congr 1
          omega
        rw [h2, List.getElem?_eq_getElem hi]
        rfl
      rw [htake, hdrop]
      simp only [List.flatMap_cons, escByteSpec, he, if_pos rfl]
      simp [List.append_assoc]
    · rw [if_neg he]
      rw [ihk (i + 1) (i + 1) _ (by omega) (by omega) (by omega)
          (by intro j hj hsj hji; omega)]
      have hdrop : bytes.drop i = bytes.get ⟨i, hi⟩ :: bytes.drop (i + 1) := by
        rw [List.drop_eq_get_cons hi]
      rw [hdrop]
      simp only [List.flatMap_cons, escByteSpec, he, if_neg he]
      simp [List.append_assoc]

/-- The escaping loop, started as `escape_str` starts it, is the per-byte
map. -/
theorem escapeStr_eq (bytes : List Nat) :
    escapeStr bytes = 34 :: bytes.flatMap escByteSpec ++ [34] := by
  unfold escapeStr
  rw [escLoop_spec bytes (bytes.length - 0) 0 0 [] rfl (le_refl 0)
      (Nat.zero_le _) (by intro j hj h0 hj0; omega)]
  simp

/-! The non-recursive teardown of `cbor/drop.rs` / `cbor/object.rs`. -/

/-- Modelled from the spec: the children one popped value contributes to
the teardown work-list.  The `cbor/drop.rs` shipped in src/ names the
json-flavored `Value` (with an `Object` variant) and so does not name the
CBOR variants as compiled; per spec §3/§9 and the `Drop for Object` impl
in `cbor/object.rs` (which sends each key *and* each value through
`drop::safely`), an `Array` contributes its elements, a `Map` both halves
of every entry, and a `Tag` its boxed child. -/
def dropChildren : Value → List Value
  | .array xs => xs
  | .map es => es.flatMap (fun e => [e.1, e.2])
  | .tag _ v => [v]
  | _ => []

/-- The `while let Some(value) = stack.pop()` drain loop of `safely`:
pop the top of the work-list, push its children, repeat; `true` when the
work-list empties within `fuel` iterations.  Each iteration inspects only
the immediate children of one node — no recursion over the tree. -/
def drain : Nat → List Value → Bool
  | _, [] => true
  | 0, _ :: _ => false
  | fuel + 1, v :: stack => drain fuel (dropChildren v ++ stack)

mutual

/-- Number of nodes of a value tree: the exact number of iterations its
teardown work-list takes. -/
def nodesV : Value → Nat
  | .array xs => 1 + nodesL xs
  | .map es => 1 + nodesE es
  | .tag _ v => 1 + nodesV v
  | _ => 1

/-- Total nodes of a list of values. -/
def nodesL : List Value → Nat
  | [] => 0
  | x :: rest => nodesV x + nodesL rest

/-- Total nodes of a list of entries. -/
def nodesE : List (Value × Value) → Nat
  | [] => 0
  | (k, v) :: rest => nodesV k + nodesV v + nodesE rest

end

/-- Total nodes on a work-list. -/
def stackNodes (l : List Value) : Nat := (l.map nodesV).sum

/-- Model of `safely`: values without children are dropped directly
(the early `return`), containers go through the iterative work-list,
which `drop_safely_drains` below proves always terminates. -/
def dropSafely (v : Value) : Bool :=
  match v with
  | .array _ | .map _ | .tag _ _ => drain (nodesV v) [v]
  | _ => true

theorem stackNodes_nil : stackNodes [] = 0 := rfl

theorem stackNodes_cons (v : Value) (l : List Value) :
    stackNodes (v :: l) = nodesV v + stackNodes l := by
  simp [stackNodes]

theorem stackNodes_append (l1 l2 : List Value) :
    stackNodes (l1 ++ l2) = stackNodes l1 + stackNodes l2 := by
  simp [stackNodes]

theorem nodesL_eq_stackNodes (xs : List Value) : nodesL xs = stackNodes xs := by
  induction xs with
  | nil => rfl
  | cons x rest ih => rw [nodesL, stackNodes_cons, ih]

theorem nodesE_eq_stackNodes (es : List (Value × Value)) :
    nodesE es = stackNodes (es.flatMap (fun e => [e.1, e.2])) := by
  induction es with
  | nil => rfl
  | cons e rest ih =>
    rcases e with ⟨k, v⟩
    simp only [nodesE, List.flatMap_cons, stackNodes_append, stackNodes_cons,
      stackNodes_nil, ih]
    omega

/-- Popping one node replaces it by strictly fewer total nodes. -/
theorem stackNodes_children (v : Value) :
    stackNodes (dropChildren v) + 1 = nodesV v := by
  cases v with
  | array xs => simp [dropChildren, nodesV, ← nodesL_eq_stackNodes]; omega
  | map es => simp [dropChildren, nodesV, ← nodesE_eq_stackNodes]; omega
  | tag t v => simp [dropChildren, nodesV, stackNodes_cons, stackNodes_nil]; omega
  | null => rfl
  | bool b => rfl
  | integer i => rfl
  | float f => rfl
  | bytes bs => rfl
  | text ts => rfl

/-- The work-list drain terminates once the fuel covers the total node
count of the stack. -/
theorem drain_adequate :
    ∀ fuel stack, stackNodes stack ≤ fuel → drain fuel stack = true := by
  intro fuel
  induction fuel with
  | zero =>
    intro stack h
    cases stack with
    | nil => rfl
    | cons v rest =>
      exfalso
      rw [stackNodes_cons] at h
      have := stackNodes_children v
      omega
  | succ m ih =>
    intro stack h
    cases stack with
    | nil => rfl
    | cons v rest =>
      rw [drain]
      apply ih
      rw [stackNodes_append]
      rw [stackNodes_cons] at h
      have := stackNodes_children v
      omega

/-- Simultaneous structural induction over values, element lists and
entry lists, used for every property proved jointly over the mutual
structure. -/
theorem valueInduction {PV : Value → Prop} {PL : List Value → Prop}
    {PE : List (Value × Value) → Prop}
    (hnull : PV .null) (hbool : ∀ b, PV (.bool b))
    (hint : ∀ i, PV (.integer i)) (hfloat : ∀ f, PV (.float f))
    (hbytes : ∀ bs, PV (.bytes bs)) (htext : ∀ ts, PV (.text ts))
    (harr : ∀ xs, PL xs → PV (.array xs))
    (hmap : ∀ es, PE es → PV (.map es))
    (htag : ∀ t v, PV v → PV (.tag t v))
    (hnil : PL []) (hcons : ∀ x rest, PV x → PL rest → PL (x :: rest))
    (henil : PE [])
    (hecons : ∀ k v rest, PV k → PV v → PE rest → PE ((k, v) :: rest)) :
    (∀ v, PV v) ∧ (∀ xs, PL xs) ∧ (∀ es, PE es) := by
  have key : ∀ n : Nat,
      (∀ v : Value, sizeOf v ≤ n → PV v) ∧
      (∀ xs : List Value, sizeOf xs ≤ n → PL xs) ∧
      (∀ es : List (Value × Value), sizeOf es ≤ n → PE es) := by
    intro n
    induction n using Nat.strong_induction_on with
    | _ n ih =>
      refine ⟨?_, ?_, ?_⟩
      · intro v hv
        cases v with
        | null => exact hnull
        | bool b => exact hbool b
        | integer i => exact hint i
        | float f => exact hfloat f
        | bytes bs => exact hbytes bs
        | text ts => exact htext ts
        | array xs =>
          refine harr xs ?_
          have hlt : sizeOf xs < n := by simp at hv; omega
          exact (ih (sizeOf xs) hlt).2.1 xs (le_refl _)
        | map es =>
          refine hmap es ?_
          have hlt : sizeOf es < n := by simp at hv; omega
          exact (ih (sizeOf es) hlt).2.2 es (le_refl _)
        | tag t v =>
          refine htag t v ?_
          have hlt : sizeOf v < n := by simp at hv; omega
          exact (ih (sizeOf v) hlt).1 v (le_refl _)
      · intro xs hxs
        cases xs with
        | nil => exact hnil
        | cons x rest =>
          refine hcons x rest ?_ ?_
          · have hlt : sizeOf x < n := by simp at hxs; omega
            exact (ih (sizeOf x) hlt).1 x (le_refl _)
          · have hlt : sizeOf rest < n := by simp at hxs; omega
            exact (ih (sizeOf rest) hlt).2.1 rest (le_refl _)
      · intro es hes
        cases es with
        | nil => exact henil
        | cons e rest =>
          rcases e with ⟨k, v⟩
          refine hecons k v rest ?_ ?_ ?_
          · have hlt : sizeOf k < n := by simp at hes; omega
            exact (ih (sizeOf k) hlt).1 k (le_refl _)
          · have hlt : sizeOf v < n := by simp at hes; omega
            exact (ih (sizeOf v) hlt).1 v (le_refl _)
          · have hlt : sizeOf rest < n := by simp at hes; omega
            exact (ih (sizeOf rest) hlt).2.2 rest (le_refl _)
  exact ⟨fun v => (key (sizeOf v)).1 v (le_refl _),
    fun xs => (key (sizeOf xs)).2.1 xs (le_refl _),
    fun es => (key (sizeOf es)).2.2 es (le_refl _)⟩

/-- Serializability of a value: `cbor::to_vec` succeeds on it.  This is
what the `expect("self is serializable")` in `Ord for Value` assumes. -/
def Serializable (v : Value) : Prop := ∃ bs, toVec v = .ok bs

theorem cmpFallback_swap (a b : Value) :
    cmpFallback b a = (cmpFallback a b).map Ordering.swap := by
  unfold cmpFallback
  cases toVec a with
  | error e => cases toVec b <;> rfl
  | ok ba =>
    cases toVec b with
    | error e => rfl
    | ok bb =>
      show some (listCompare bb ba) = some (listCompare ba bb).swap
      rw [listCompare_swap ba bb]

theorem swapLenLex (x y : List Nat) :
    (if y.length ≠ x.length then ncmp y.length x.length else listCompare y x) =
      (if x.length ≠ y.length then ncmp x.length y.length
       else listCompare x y).swap := by
  by_cases hl : x.length = y.length
  · rw [if_neg (by omega), if_neg (by omega), listCompare_swap]
  · rw [if_pos (by omega), if_pos (by omega), ncmp_swap]

theorem cmpSameMajor_swap (a b : Value) :
    cmpSameMajor b a = (cmpSameMajor a b).map Ordering.swap := by
  cases a <;> cases b <;> simp only [cmpSameMajor] <;>
    first
    | exact cmpFallback_swap _ _
    | skip
  case integer.integer x y =>
    show some (ncmp y.natAbs x.natAbs) = some (ncmp x.natAbs y.natAbs).swap
    rw [ncmp_swap]
  case bytes.bytes x y =>
    exact congrArg some (swapLenLex x y)
  case text.text x y =>
    exact congrArg some (swapLenLex x y)
  case array.array x y =>
    show (if y.length ≠ x.length then some (ncmp y.length x.length)
          else cmpFallback (.array y) (.array x)) =
        (if x.length ≠ y.length then some (ncmp x.length y.length)
         else cmpFallback (.array x) (.array y)).map Ordering.swap
    by_cases hl : x.length = y.length
    · rw [if_neg (by omega), if_neg (by omega), cmpFallback_swap]
    · rw [if_pos (by omega), if_pos (by omega), ncmp_swap]
      rfl
  case map.map x y =>
    show (if y.length ≠ x.length then some (ncmp y.length x.length)
          else cmpFallback (.map y) (.map x)) =
        (if x.length ≠ y.length then some (ncmp x.length y.length)
         else cmpFallback (.map x) (.map y)).map Ordering.swap
    by_cases hl : x.length = y.length
    · rw [if_neg (by omega), if_neg (by omega), cmpFallback_swap]
    · rw [if_pos (by omega), if_pos (by omega), ncmp_swap]
      rfl

/-- Antisymmetry of the canonical comparator: swapping the operands swaps
the ordering (and preserves a panic). -/
theorem cmpValue_swap (a b : Value) :
    cmpValue b a = (cmpValue a b).map Ordering.swap := by
  unfold cmpValue
  by_cases hm : majorType a = majorType b
  · rw [if_neg (fun hn => hn hm.symm), if_neg (fun hn => hn hm)]
    exact cmpSameMajor_swap a b
  · rw [if_pos (fun h => hm h.symm), if_pos hm, ncmp_swap]
    rfl

theorem cmpFallback_isSome {a b : Value} (ha : Serializable a)
    (hb : Serializable b) : ∃ o, cmpFallback a b = some o := by
  rcases ha with ⟨ba, hba⟩
  rcases hb with ⟨bb, hbb⟩
  refine ⟨listCompare ba bb, ?_⟩
  simp [cmpFallback, hba, hbb]

/-- Totality of the canonical comparator on serializable values: the
`expect` never fires, some ordering always comes back. -/
theorem cmpValue_isSome {a b : Value} (ha : Serializable a)
    (hb : Serializable b) : ∃ o, cmpValue a b = some o := by
  unfold cmpValue
  by_cases hm : majorType a ≠ majorType b
  · rw [if_pos hm]; exact ⟨_, rfl⟩
  · rw [if_neg hm]
    have hf := cmpFallback_isSome ha hb
    cases a <;> cases b <;> simp only [cmpSameMajor] <;>
      first
      | exact hf
      | exact ⟨_, rfl⟩
      | (split_ifs with h <;> first | exact ⟨_, rfl⟩ | exact hf)

/-- Ordering that an insertion-sort by the canonical comparator keeps:
the left value does not strictly exceed the right one (a comparison
panic, impossible on serializable values, also counts as kept). -/
def NotGt (a b : Value) : Prop := cmpValue a b ≠ some .gt

theorem notGt_of_gt {x y : Value} (h : cmpValue x y = some .gt) : NotGt y x := by
  unfold NotGt
  rw [cmpValue_swap x y, h]
  simp [Ordering.swap]

/-- Insertion into a sorted prefix, the way a sort by `Ord for Value`
places elements. -/
def insertSorted (x : Value) : List Value → List Value
  | [] => [x]
  | y :: l => if cmpValue x y = some .gt then y :: insertSorted x l
              else x :: y :: l

/-- Insertion sort of a container by the canonical comparator. -/
def sortValues : List Value → List Value
  | [] => []
  | x :: l => insertSorted x (sortValues l)

theorem chain'_insertSorted (x : Value) :
    ∀ l, List.Chain' NotGt l → List.Chain' NotGt (insertSorted x l) := by
  intro l
  induction l with
  | nil => intro _; simp [insertSorted]
  | cons y l ih =>
    intro hl
    rw [insertSorted]
    by_cases h : cmpValue x y = some .gt
    · rw [if_pos h]
      refine List.Chain'.cons' (ih (List.Chain'.tail hl)) ?_
      intro z hz
      cases l with
      | nil =>
        simp [insertSorted] at hz
        subst hz
        exact notGt_of_gt h
      | cons w l' =>
        rw [insertSorted] at hz
        by_cases h2 : cmpValue x w = some .gt
        · rw [if_pos h2] at hz
          simp at hz
          subst hz
          exact (List.chain'_cons.mp hl).1
        · rw [if_neg h2] at hz
          simp at hz
          subst hz
          exact notGt_of_gt h
    · rw [if_neg h]
      exact List.chain'_cons.mpr ⟨h, hl⟩

theorem sortValues_chain' (l : List Value) :
    List.Chain' NotGt (sortValues l) := by
  induction l with
  | nil => simp [sortValues]
  | cons x l ih => exact chain'_insertSorted x _ ih

theorem sortValues_of_chain' :
    ∀ l, List.Chain' NotGt l → sortValues l = l := by
  intro l
  induction l with
  | nil => intro _; rfl
  | cons x l ih =>
    intro hl
    rw [sortValues, ih (List.Chain'.tail hl)]
    cases l with
    | nil => rfl
    | cons y l' =>
      rw [insertSorted, if_neg (List.chain'_cons.mp hl).1]

/-- Re-sorting a container sorted by the canonical comparator changes
nothing. -/
theorem sortValues_idem (l : List Value) :
    sortValues (sortValues l) = sortValues l :=
  sortValues_of_chain' _ (sortValues_chain' l)

/-- Stated from the specification's words (§4.1 / C5), for comparison
with the source-derived `writeU64`: the magnitude is "minimally encoded
using the smallest of (immediate 0-23, 1-byte, 2-byte, 4-byte, 8-byte)
big-endian forms" after the major-type mask. -/
def specMinimalBytes (major mag : Nat) : List Nat :=
  if mag ≤ 23 then [major * 32 + mag]
  else if mag < 2 ^ 8 then [major * 32 + 24, mag]
  else if mag < 2 ^ 16 then (major * 32 + 25) :: be2 mag
  else if mag < 2 ^ 32 then (major * 32 + 26) :: be4 mag
  else (major * 32 + 27) :: be8 mag

/-- Stated from the specification's words: major type 0 with magnitude
`i` for non-negative `i`, major type 1 with magnitude `-(i+1)` for
negative `i`, minimal-width in either case. -/
def specIntBytes (i : Int) : List Nat :=
  if 0 ≤ i then specMinimalBytes 0 i.toNat
  else specMinimalBytes 1 (-(i + 1)).toNat

theorem writeU64_eq_spec (m v : Nat) (hv : v < 2 ^ 64) :
    writeU64 m v = .ok (specMinimalBytes m v) := by
  simp only [writeU64, specMinimalBytes]
  split_ifs <;> first | rfl | omega

set_option maxHeartbeats 1000000 in
/-- Counter preservation for the whole decoding engine: every function of
the mutual block leaves the thread-local depth counter exactly where it
found it, on success and on every error path. -/
theorem counterPreserved : ∀ fuel,
    (∀ bs c, (decodeV fuel bs c).2 = c) ∧
    (∀ bs c, (recurseChecked fuel bs c).2 = c) ∧
    (∀ len acc bs c, (decodeSeqN fuel len acc bs c).2 = c) ∧
    (∀ acc bs c, (decodeSeqIndef fuel acc bs c).2 = c) ∧
    (∀ len acc bs c, (decodeMapN fuel len acc bs c).2 = c) ∧
    (∀ acc bs c, (decodeMapIndef fuel acc bs c).2 = c) := by
  intro fuel
  induction fuel using Nat.strong_induction_on with
  | _ fuel ih =>
    have hV : ∀ bs c, (decodeV fuel bs c).2 = c := by
      intro bs c
      cases fuel with
      | zero => simp [decodeV]
      | succ f =>
        cases bs with
        | nil => rw [decodeV]
        | cons b rest =>
          have ihf := ih f (Nat.lt_succ_self f)
          have ihS := And.intro ihf.2.2.1 (And.intro ihf.2.2.2.1
            (And.intro ihf.2.2.2.2.1 ihf.2.2.2.2.2))
          clear ih ihf
          rw [decodeV]
          have hm : majorOf b < 8 := by unfold majorOf; omega
          set m := majorOf b with hmdef
          interval_cases m <;>
            simp only [Nat.reduceEqDiff, reduceIte, Nat.zero_ne_one, or_self,
              or_true, true_or, or_false, false_or] <;>
            (repeat' split) <;>
            first
            | rfl
            | (rename_i heq
               first
               | exact (congrArg Prod.snd heq).symm.trans (ihS.1 _ _ _ _)
               | exact (congrArg Prod.snd heq).symm.trans (ihS.2.1 _ _ _)
               | exact (congrArg Prod.snd heq).symm.trans (ihS.2.2.1 _ _ _ _)
               | exact (congrArg Prod.snd heq).symm.trans (ihS.2.2.2 _ _ _))
    have hR : ∀ bs c, (recurseChecked fuel bs c).2 = c := by
      intro bs c
      rw [recurseChecked]
      split_ifs with h
      · simp
      · have h2 := hV bs (c + 1)
        cases hd : decodeV fuel bs (c + 1) with
        | mk r s =>
          rw [hd] at h2
          simp at h2
          simp [h2]
    have hSN : ∀ len acc bs c, (decodeSeqN fuel len acc bs c).2 = c := by
      intro len
      induction len with
      | zero => intro acc bs c; rw [decodeSeqN]
      | succ n ihn =>
        intro acc bs c
        rw [decodeSeqN]
        cases hd : recurseChecked fuel bs c with
        | mk r c2 =>
          have h2 : c2 = c := by
            have hh := hR bs c
            rw [hd] at hh
            exact hh
          cases r with
          | ok p =>
            rcases p with ⟨x, rest⟩
            exact (ihn _ _ _).trans h2
          | error e => exact h2
    have hMN : ∀ len acc bs c, (decodeMapN fuel len acc bs c).2 = c := by
      intro len
      induction len with
      | zero => intro acc bs c; rw [decodeMapN]
      | succ n ihn =>
        intro acc bs c
        rw [decodeMapN]
        cases hd : recurseChecked fuel bs c with
        | mk r c2 =>
          have h2 : c2 = c := by
            have hh := hR bs c
            rw [hd] at hh
            exact hh
          cases r with
          | error e => exact h2
          | ok p =>
            rcases p with ⟨k, rest⟩
            simp only []
            cases hd2 : recurseChecked fuel rest c2 with
            | mk r2 c3 =>
              have h3 : c3 = c2 := by
                have hh := hR rest c2
                rw [hd2] at hh
                exact hh
              cases r2 with
              | error e => exact h3.trans h2
              | ok p2 =>
                rcases p2 with ⟨v, rest2⟩
                simp only []
                cases btInsert acc k v with
                | none => exact h3.trans h2
                | some acc2 => exact (ihn _ _ _).trans (h3.trans h2)
    have hSI : ∀ acc bs c, (decodeSeqIndef fuel acc bs c).2 = c := by
      intro acc bs c
      cases fuel with
      | zero => rw [decodeSeqIndef]
      | succ f =>
        cases bs with
        | nil => rw [decodeSeqIndef]
        | cons b rest =>
          rw [decodeSeqIndef]
          split_ifs with h
          · rfl
          · cases hd : recurseChecked (f + 1) (b :: rest) c with
            | mk r c2 =>
              have h2 : c2 = c := by
                have hh := hR (b :: rest) c
                rw [hd] at hh
                exact hh
              cases r with
              | error e => exact h2
              | ok p =>
                rcases p with ⟨x, rest2⟩
                exact ((ih f (Nat.lt_succ_self f)).2.2.2.1 _ _ _).trans h2
    have hMI : ∀ acc bs c, (decodeMapIndef fuel acc bs c).2 = c := by
      intro acc bs c
      cases fuel with
      | zero => rw [decodeMapIndef]
      | succ f =>
        cases bs with
        | nil => rw [decodeMapIndef]
        | cons b rest =>
          rw [decodeMapIndef]
          split_ifs with h
          · rfl
          · cases hd : recurseChecked (f + 1) (b :: rest) c with
            | mk r c2 =>
              have h2 : c2 = c := by
                have hh := hR (b :: rest) c
                rw [hd] at hh
                exact hh
              cases r with
              | error e => exact h2
              | ok p =>
                rcases p with ⟨k, rest2⟩
                simp only []
                cases hd2 : recurseChecked (f + 1) rest2 c2 with
                | mk r2 c3 =>
                  have h3 : c3 = c2 := by
                    have hh := hR rest2 c2
                    rw [hd2] at hh
                    exact hh
                  cases r2 with
                  | error e => exact h3.trans h2
                  | ok p2 =>
                    rcases p2 with ⟨v, rest3⟩
                    simp only []
                    cases btInsert acc k v with
                    | none => exact h3.trans h2
                    | some acc2 =>
                      exact (((ih f (Nat.lt_succ_self f)).2.2.2.2.2 _ _ _).trans
                        h3).trans h2
    exact ⟨hV, hR, hSN, hSI, hMN, hMI⟩

theorem beVal_be2 (v : Nat) (h : v < 2 ^ 16) : beVal (be2 v) = v := by
  simp [beVal, be2]
  omega

theorem beVal_be4 (v : Nat) (h : v < 2 ^ 32) : beVal (be4 v) = v := by
  simp [beVal, be4]
  omega

theorem beVal_be8 (v : Nat) (h : v < 2 ^ 64) : beVal (be8 v) = v := by
  simp [beVal, be8]
  omega

theorem readN_exact (xs : List Nat) :
    ∀ rest, readN xs.length (xs ++ rest) = some (xs, rest) := by
  induction xs with
  | nil => intro rest; rfl
  | cons x xs ih =>
    intro rest
    simp [readN, ih]

/-- The header written by `write_u64` reads back through `major_and_tag`
and `parse_u64` as exactly the major type and magnitude it encodes. -/
theorem writeU64_roundtrip (m v : Nat) (hm : m ≤ 7) (hv : v < 2 ^ 64) :
    ∃ b tail, writeU64 m v = .ok (b :: tail) ∧ majorOf b = m ∧ tagOf b ≤ 0x1b ∧
      ∀ rest, parseU64 (tagOf b) (tail ++ rest) = .ok (v, rest) := by
  simp only [writeU64]
  split_ifs with h1 h2 h3 h4 h5
  · refine ⟨m * 32 + v, [], rfl, by unfold majorOf; omega,
      by unfold tagOf; omega, ?_⟩
    intro rest
    have ht : tagOf (m * 32 + v) = v := by unfold tagOf; omega
    rw [ht]
    simp only [parseU64, List.nil_append]
    rw [if_pos (by omega)]
  · refine ⟨m * 32 + 0x18, [v], rfl, by unfold majorOf; omega,
      by unfold tagOf; omega, ?_⟩
    intro rest
    have ht : tagOf (m * 32 + 0x18) = 0x18 := by unfold tagOf; omega
    rw [ht]
    simp [parseU64]
  · refine ⟨m * 32 + 0x19, be2 v, rfl, by unfold majorOf; omega,
      by unfold tagOf; omega, ?_⟩
    intro rest
    have ht : tagOf (m * 32 + 0x19) = 0x19 := by unfold tagOf; omega
    rw [ht]
    have hr : readN 2 (be2 v ++ rest) = some (be2 v, rest) := by
      have h := readN_exact (be2 v) rest
      rwa [show (be2 v).length = 2 from rfl] at h
    simp [parseU64, hr, beVal_be2 v (by omega)]
  · refine ⟨m * 32 + 0x1a, be4 v, rfl, by unfold majorOf; omega,
      by unfold tagOf; omega, ?_⟩
    intro rest
    have ht : tagOf (m * 32 + 0x1a) = 0x1a := by unfold tagOf; omega
    rw [ht]
    have hr : readN 4 (be4 v ++ rest) = some (be4 v, rest) := by
      have h := readN_exact (be4 v) rest
      rwa [show (be4 v).length = 4 from rfl] at h
    simp [parseU64, hr, beVal_be4 v (by omega)]
  · refine ⟨m * 32 + 0x1b, be8 v, rfl, by unfold majorOf; omega,
      by unfold tagOf; omega, ?_⟩
    intro rest
    have ht : tagOf (m * 32 + 0x1b) = 0x1b := by unfold tagOf; omega
    rw [ht]
    have hr : readN 8 (be8 v ++ rest) = some (be8 v, rest) := by
      have h := readN_exact (be8 v) rest
      rwa [show (be8 v).length = 8 from rfl] at h
    simp [parseU64, hr, beVal_be8 v hv]
  · omega

/-- The two accepted encodings of null dispatch to the same visitor call:
decoding a byte stream headed by `0xF6` (major 7, selector 0x16) and one
headed by `0xF7` (major 7, selector 0x17) produce identical results, for
any remaining input and any depth-counter state. -/
theorem decodeV_null_alt (fuel c : Nat) (rest : List Nat) :
    decodeV fuel (0xf6 :: rest) c = decodeV fuel (0xf7 :: rest) c := by
  cases fuel with
  | zero => simp [decodeV]
  | succ f => simp [decodeV, majorOf, tagOf]

/-- Header bytes of one known-length chunk of an indefinite-length
string: a major-type-2 `write_u64` header for the chunk's length. -/
def chunkHdr (ch : List Nat) : List Nat := specMinimalBytes 2 ch.length

theorem specMinimalBytes_ne_nil (m v : Nat) : specMinimalBytes m v ≠ [] := by
  unfold specMinimalBytes
  split_ifs <;> simp [be2, be4, be8]

/-- Behavior of the indefinite-length chunk loops on a well-formed chunk
stream: every chunk (major-2-headed, and UTF-8-valid when the text loop is
validating) is accumulated in order, and the break marker is consumed. -/
theorem decodeChunks_spec (u : Bool) (chunks : List (List Nat)) :
    ∀ fuel acc rest,
      chunks.length < fuel →
      (∀ ch ∈ chunks, ch.length < 2 ^ 64 ∧ (u = true → utf8Valid ch = true)) →
      decodeChunks u fuel acc
          (chunks.flatMap (fun ch => chunkHdr ch ++ ch) ++ (0xff :: rest)) =
        .ok (acc ++ chunks.flatten, rest) := by
  induction chunks with
  | nil =>
    intro fuel acc rest hfuel _
    match fuel, hfuel with
    | f + 1, _ =>
      simp only [List.flatMap_nil, List.nil_append, List.flatten_nil,
        List.append_nil]
      rw [decodeChunks]
      rw [if_pos (by unfold majorOf tagOf; omega)]
  | cons ch chunks ih =>
    intro fuel acc rest hfuel hwf
    match fuel, hfuel with
    | f + 1, hfuel =>
      obtain ⟨hlen, hutf⟩ := hwf ch (List.mem_cons_self ch chunks)
      obtain ⟨b, tail, hw, hmaj, _, hparse⟩ :=
        writeU64_roundtrip 2 ch.length (by omega) hlen
      have hhdr : chunkHdr ch = b :: tail := by
        have := writeU64_eq_spec 2 ch.length hlen
        rw [this] at hw
        exact (Except.ok.injEq _ _).mp hw
      simp only [List.flatMap_cons, hhdr, List.cons_append, List.append_assoc]
      rw [decodeChunks]
      rw [if_neg (by rw [hmaj]; omega), if_pos hmaj]
      have hp := hparse (ch ++
        (chunks.flatMap (fun ch => chunkHdr ch ++ ch) ++ (0xff :: rest)))
      rw [show parseKnownLen (tagOf b) (tail ++ (ch ++
          (chunks.flatMap (fun ch => chunkHdr ch ++ ch) ++ (0xff :: rest)))) =
          .ok (ch, chunks.flatMap (fun ch => chunkHdr ch ++ ch) ++
            (0xff :: rest)) from by
        unfold parseKnownLen
        rw [hp]
        simp only []
        rw [if_neg (by simp only [List.length_append]; omega)]
        rw [List.take_left, List.drop_left]]
      have hcheck : (u && !utf8Valid ch) = false := by
        cases u with
        | false => rfl
        | true => simp [hutf rfl]
      simp only []
      rw [hcheck]
      simp only [Bool.false_eq_true, if_false]
      rw [ih f (acc ++ ch) rest (by simpa using hfuel) (fun c hc =>
        hwf c (List.mem_cons_of_mem _ hc))]
      simp [List.append_assoc]

/-- The nested definite-length singleton array `[[...[0]...]]`. -/
def nestArr : Nat → Value
  | 0 => .integer 0
  | n + 1 => .array [nestArr n]

/-- Decoding `n` definite singleton array headers around a zero: succeeds
up to the guard's tolerance, hits the recursion ceiling beyond it. -/
theorem decode81 : ∀ n fuel c, n + 1 ≤ fuel →
    decodeV fuel (List.replicate n 0x81 ++ [0x00]) c =
      (if n = 0 then (.ok (nestArr 0, []), c)
       else if c + n - 1 ≤ 256 then (.ok (nestArr n, []), c)
       else (.error .depthLimit, c)) := by
  intro n
  induction n with
  | zero =>
    intro fuel c hf
    match fuel, hf with
    | f + 1, _ =>
      simp only [List.replicate_zero, List.nil_append, if_pos rfl]
      rw [decodeV]
      rw [if_pos (by unfold majorOf; omega)]
      simp [parseU64, majorOf, tagOf, nestArr]
  | succ n ihn =>
    intro fuel c hf
    match fuel, hf with
    | f + 1, hf =>
      rw [if_neg (Nat.succ_ne_zero n)]
      simp only [List.replicate_succ, List.cons_append]
      rw [decodeV]
      rw [if_neg (by unfold majorOf; omega)]
      rw [if_neg (by unfold majorOf; omega)]
      rw [if_neg (by unfold majorOf; omega)]
      rw [if_pos (by unfold majorOf; omega)]
      rw [if_neg (by unfold tagOf; omega)]
      rw [show parseU64 (tagOf 0x81) (List.replicate n 0x81 ++ [0x00]) =
          .ok (1, List.replicate n 0x81 ++ [0x00]) from by
        unfold tagOf parseU64
        rw [if_pos (by omega)]]
      simp only []
      rw [show decodeSeqN f 1 [] (List.replicate n 0x81 ++ [0x00]) c =
          (if c > 256 then (.error .depthLimit, c)
           else if n = 0 then (.ok ([nestArr 0], []), c)
           else if (c + 1) + n - 1 ≤ 256 then (.ok ([nestArr n], []), c)
           else (.error .depthLimit, c)) from by
        rw [decodeSeqN, recurseChecked]
        by_cases hc : 256 < c
        · rw [if_pos hc, if_pos hc]
          simp
        · rw [if_neg hc, if_neg (by omega)]
          rw [ihn f (c + 1) (by omega)]
          simp only []
          by_cases hn : n = 0
          · subst hn
            simp [decodeSeqN, nestArr]
          · rw [if_neg hn, if_neg hn]
            by_cases hd : (c + 1) + n - 1 ≤ 256
            · rw [if_pos (by omega), if_pos hd]
              simp [decodeSeqN]
            · rw [if_neg (by omega), if_neg hd]
              simp]
      by_cases hc : 256 < c
      · rw [if_pos hc, if_neg (by omega)]
      · rw [if_neg hc]
        by_cases hn : n = 0
        · subst hn
          rw [if_pos rfl, if_pos (by omega)]
          simp [nestArr]
        · rw [if_neg hn]
          by_cases hd : (c + 1) + n - 1 ≤ 256
          · rw [if_pos hd, if_pos (by omega)]
            simp [nestArr]
          · rw [if_neg hd, if_neg (by omega)]

/-- The indefinite-length open-array loop on a run of `0x9f` bytes with
no closes: input exhaustion within the guard's tolerance, the recursion
ceiling beyond it. -/
theorem seqIndef9f : ∀ k fuel acc c, k + 1 ≤ fuel →
    decodeSeqIndef fuel acc (List.replicate k 0x9f) c =
      (.error (if k = 0 ∨ c + k ≤ 257 then .truncated else .depthLimit), c) := by
  intro k
  induction k with
  | zero =>
    intro fuel acc c hf
    match fuel, hf with
    | f + 1, _ =>
      simp only [List.replicate_zero]
      rw [decodeSeqIndef]
      simp
  | succ j ihj =>
    intro fuel acc c hf
    match fuel, hf with
    | f + 1, hf =>
      simp only [List.replicate_succ]
      rw [decodeSeqIndef]
      rw [if_neg (by unfold majorOf tagOf; omega)]
      rw [recurseChecked]
      by_cases hc : 256 < c
      · rw [if_pos hc]
        simp only []
        rw [if_neg (by omega)]
        simp
      · rw [if_neg hc]
        rw [decodeV]
        rw [if_neg (by unfold majorOf; omega)]
        rw [if_neg (by unfold majorOf; omega)]
        rw [if_neg (by unfold majorOf; omega)]
        rw [if_pos (by unfold majorOf; omega)]
        rw [if_pos (by unfold tagOf; omega)]
        rw [ihj f [] (c + 1) (by omega)]
        simp only []
        by_cases hj : j = 0 ∨ c + 1 + j ≤ 257
        · rw [if_pos hj, if_pos (by omega)]
          simp
        · rw [if_neg hj, if_neg (by omega)]
          simp

theorem heightV_pos (v : Value) : 1 ≤ heightV v := by
  cases v <;> simp only [heightV] <;> omega

theorem canonL_length (xs : List Value) : (canonL xs).length = xs.length := by
  induction xs with
  | nil => simp [canonL]
  | cons x r ih => simp [canonL, ih]

theorem canonE_length (es : List (Value × Value)) :
    (canonE es).length = es.length := by
  induction es with
  | nil => simp [canonE]
  | cons e r ih => rcases e with ⟨k, v⟩; simp [canonE, ih]

theorem nan_not_inf {f : Nat} (h : f64IsNan f = true) : f64IsInf f = false := by
  simp only [f64IsNan, Bool.and_eq_true, decide_eq_true_eq, ne_eq,
    bne_iff_ne] at h
  simp only [f64IsInf, Bool.and_eq_true, decide_eq_true_eq]
  simp only [Bool.and_eq_false_iff]
  right
  simpa using h.2

/-- NaN normalization is invisible to the float encoder: every NaN already
serializes as the fixed half-precision quiet-NaN pattern. -/
theorem floatBytes_canonF (f : Nat) : floatBytes (canonF f) = floatBytes f := by
  unfold canonF
  split_ifs with h
  · rw [show floatBytes 0x7ff8000000000000 = [0xf9, 0x7e, 0x00] from by
      unfold floatBytes
      rw [if_neg (by decide), if_pos (by decide)]]
    unfold floatBytes
    rw [if_neg (by simp [nan_not_inf h]), if_pos (by simp [h])]
  · rfl

/-- Normalization does not change the emitted bytes anywhere in a tree. -/
theorem encodeValue_canon :
    (∀ v, encodeValue (canonV v) = encodeValue v) ∧
    (∀ xs, encodeList (canonL xs) = encodeList xs) ∧
    (∀ es, encodeEntries (canonE es) = encodeEntries es) := by
  refine valueInduction ?_ ?_ ?_ ?_ ?_ ?_ ?_ ?_ ?_ ?_ ?_ ?_ ?_
  · simp [canonV]
  · intro b; simp [canonV]
  · intro i; simp [canonV]
  · intro f; simp [canonV, encodeValue, floatBytes_canonF]
  · intro bs; simp [canonV]
  · intro ts; simp [canonV]
  · intro xs ih; simp [canonV, encodeValue, canonL_length, ih]
  · intro es ih; simp [canonV, encodeValue, canonE_length, ih]
  · intro t v _; simp [canonV, encodeValue]
  · simp [canonL]
  · intro x rest ihx ihr; simp [canonL, encodeList, ihx, ihr]
  · simp [canonE]
  · intro k v rest ihk ihv ihr; simp [canonE, encodeEntries, ihk, ihv, ihr]

theorem toVec_canon (v : Value) : toVec (canonV v) = toVec v := by
  rw [toVec_eq, toVec_eq, encodeValue_canon.1]

theorem majorType_canon (v : Value) : majorType (canonV v) = majorType v := by
  cases v <;> simp [canonV, majorType]

/-- Normalization is invisible to the canonical comparator. -/
theorem cmpValue_canon (a b : Value) :
    cmpValue (canonV a) (canonV b) = cmpValue a b := by
  have hf : cmpFallback (canonV a) (canonV b) = cmpFallback a b := by
    unfold cmpFallback
    rw [toVec_canon, toVec_canon]
  unfold cmpValue
  rw [majorType_canon, majorType_canon]
  by_cases h : majorType a ≠ majorType b
  · rw [if_pos h, if_pos h]
  · rw [if_neg h, if_neg h]
    cases a <;> cases b <;>
      simp only [canonV] at hf ⊢ <;>
      simp only [cmpSameMajor, canonL_length, canonE_length] <;>
      first
      | rfl
      | exact hf
      | (split_ifs <;> (first | rfl | exact hf))

/-- A serializable value compares equal to its normalization. -/
theorem cmpValue_canon_eq {v : Value} (h : Serializable v) :
    cmpValue (canonV v) v = some Ordering.eq := by
  obtain ⟨bs, hbs⟩ := h
  have hfb : cmpFallback (canonV v) v = some Ordering.eq := by
    unfold cmpFallback
    rw [toVec_canon, hbs]
    simp only []
    rw [listCompare_self]
  unfold cmpValue
  rw [majorType_canon]
  rw [if_neg (by simp)]
  cases v with
  | null => simp only [canonV] at hfb ⊢; simp only [cmpSameMajor]; exact hfb
  | bool b => simp only [canonV] at hfb ⊢; simp only [cmpSameMajor]; exact hfb
  | integer i =>
    simp only [canonV] at hfb ⊢
    simp [cmpSameMajor, ncmp_self]
  | float f => simp only [canonV] at hfb ⊢; simp only [cmpSameMajor]; exact hfb
  | bytes bsv =>
    simp only [canonV] at hfb ⊢
    simp [cmpSameMajor, listCompare_self]
  | text ts =>
    simp only [canonV] at hfb ⊢
    simp [cmpSameMajor, listCompare_self]
  | array xs =>
    simp only [canonV] at hfb ⊢
    simp only [cmpSameMajor, canonL_length]
    rw [if_neg (by simp)]
    exact hfb
  | map es =>
    simp only [canonV] at hfb ⊢
    simp only [cmpSameMajor, canonE_length]
    rw [if_neg (by simp)]
    exact hfb
  | tag t v =>
    simp only [canonV] at hfb ⊢
    simp only [cmpSameMajor]
    exact hfb

/-- `BTreeMap::insert` of a key greater than every present key appends. -/
theorem btInsert_append : ∀ (acc : List (Value × Value)) (k v : Value),
    (∀ e ∈ acc, cmpValue k e.1 = some Ordering.gt) →
    btInsert acc k v = some (acc ++ [(k, v)]) := by
  intro acc
  induction acc with
  | nil => intro k v _; rfl
  | cons e rest ih =>
    intro k v h
    rcases e with ⟨k', v'⟩
    have hk : cmpValue k k' = some Ordering.gt :=
      h (k', v') (List.mem_cons_self _ _)
    simp only [btInsert, hk]
    rw [ih k v (fun e he => h e (List.mem_cons_of_mem _ he))]
    simp

theorem writeU64_len {m v : Nat} {bs : List Nat}
    (h : writeU64 m v = .ok bs) : 1 ≤ bs.length := by
  unfold writeU64 at h
  split_ifs at h <;>
    first
    | (simp only [Except.ok.injEq] at h; subst h; simp [be2, be4, be8])
    | simp at h

theorem floatBytes_len (f : Nat) : 1 ≤ (floatBytes f).length := by
  unfold floatBytes
  split_ifs
  · simp
  · simp
  · simp
  · cases tryNarrow16 f with
    | some h16 => simp [be2]
    | none =>
      cases tryNarrow32 f with
      | some w32 => simp [be4]
      | none => simp [be8]

/-- An encoding is at least one byte per nesting level: fuel adequacy of
`from_slice`'s byte-count bound. -/
theorem encLen :
    (∀ v, ∀ bs, encodeValue v = .ok bs →
      heightV v ≤ bs.length ∧ 1 ≤ bs.length) ∧
    (∀ xs, ∀ bs, encodeList xs = .ok bs → heightL xs ≤ bs.length) ∧
    (∀ es, ∀ bs, encodeEntries es = .ok bs → heightE es ≤ bs.length) := by
  refine valueInduction ?_ ?_ ?_ ?_ ?_ ?_ ?_ ?_ ?_ ?_ ?_ ?_ ?_
  · intro bs h
    simp only [encodeValue, Except.ok.injEq] at h
    subst h
    simp [heightV]
  · intro b bs h
    simp only [encodeValue, Except.ok.injEq] at h
    subst h
    simp [heightV]
  · intro i bs h
    simp only [encodeValue, intBytes] at h
    split_ifs at h <;>
      first
      | (have h1 := writeU64_len h; simp only [heightV]; omega)
      | simp at h
  · intro f bs h
    simp only [encodeValue, Except.ok.injEq] at h
    subst h
    have := floatBytes_len f
    simp only [heightV]
    omega
  · intro bsv bs h
    cases hw : writeU64 4 bsv.length with
    | error e => simp [encodeValue, hw, Except.bind, bind] at h
    | ok hdr =>
      cases hb : encByteSeq bsv with
      | error e => simp [encodeValue, hw, hb, Except.bind, bind] at h
      | ok body =>
        simp [encodeValue, hw, hb, Except.bind, bind] at h
        subst h
        have := writeU64_len hw
        simp only [heightV, List.length_append]
        omega
  · intro ts bs h
    cases hw : writeU64 3 ts.length with
    | error e => simp [encodeValue, hw, Except.bind, bind] at h
    | ok hdr =>
      simp [encodeValue, hw, Except.bind, bind] at h
      subst h
      have := writeU64_len hw
      simp only [heightV, List.length_append]
      omega
  · intro xs ih bs h
    cases hw : writeU64 4 xs.length with
    | error e => simp [encodeValue, hw, Except.bind, bind] at h
    | ok hdr =>
      cases hb : encodeList xs with
      | error e => simp [encodeValue, hw, hb, Except.bind, bind] at h
      | ok body =>
        simp [encodeValue, hw, hb, Except.bind, bind] at h
        subst h
        have h1 := writeU64_len hw
        have h2 := ih body hb
        simp only [heightV, List.length_append]
        omega
  · intro es ih bs h
    cases hw : writeU64 5 es.length with
    | error e => simp [encodeValue, hw, Except.bind, bind] at h
    | ok hdr =>
      cases hb : encodeEntries es with
      | error e => simp [encodeValue, hw, hb, Except.bind, bind] at h
      | ok body =>
        simp [encodeValue, hw, hb, Except.bind, bind] at h
        subst h
        have h1 := writeU64_len hw
        have h2 := ih body hb
        simp only [heightV, List.length_append]
        omega
  · intro t v _ bs h
    simp [encodeValue] at h
  · intro bs _
    simp [heightL]
  · intro x rest ihx ihr bs h
    cases ha : encodeValue x with
    | error e => simp [encodeList, ha, Except.bind, bind] at h
    | ok a =>
      cases hb : encodeList rest with
      | error e => simp [encodeList, ha, hb, Except.bind, bind] at h
      | ok b =>
        simp [encodeList, ha, hb, Except.bind, bind] at h
        subst h
        have h1 := (ihx a ha).1
        have h2 := ihr b hb
        simp only [heightL, List.length_append]
        exact max_le (by omega) (by omega)
  · intro bs _
    simp [heightE]
  · intro k v rest ihk ihv ihr bs h
    cases ha : encodeValue k with
    | error e => simp [encodeEntries, ha, Except.bind, bind] at h
    | ok a =>
      cases hb : encodeValue v with
      | error e => simp [encodeEntries, ha, hb, Except.bind, bind] at h
      | ok b =>
        cases hc : encodeEntries rest with
        | error e => simp [encodeEntries, ha, hb, hc, Except.bind, bind] at h
        | ok c =>
          simp [encodeEntries, ha, hb, hc, Except.bind, bind] at h
          subst h
          have h1 := (ihk a ha).1
          have h2 := (ihv b hb).1
          have h3 := ihr c hc
          simp only [heightE, List.length_append]
          exact max_le (max_le (by omega) (by omega)) (by omega)

theorem beVal_be2_mod (v : Nat) : beVal (be2 v) = v % 2 ^ 16 := by
  simp [beVal, be2]
  omega

theorem beVal_be4_mod (v : Nat) : beVal (be4 v) = v % 2 ^ 32 := by
  simp [beVal, be4]
  omega

theorem widen16_mod (h : Nat) : widen16 (h % 2 ^ 16) = widen16 h := by
  have hs : h % 2 ^ 16 / 2 ^ 15 % 2 = h / 2 ^ 15 % 2 := by omega
  have he : h % 2 ^ 16 / 2 ^ 10 % 2 ^ 5 = h / 2 ^ 10 % 2 ^ 5 := by omega
  have hm : h % 2 ^ 16 % 2 ^ 10 = h % 2 ^ 10 := by omega
  simp only [widen16, hs, he, hm]

theorem widen32_mod (w : Nat) : widen32 (w % 2 ^ 32) = widen32 w := by
  have hs : w % 2 ^ 32 / 2 ^ 31 % 2 = w / 2 ^ 31 % 2 := by omega
  have he : w % 2 ^ 32 / 2 ^ 23 % 2 ^ 8 = w / 2 ^ 23 % 2 ^ 8 := by omega
  have hm : w % 2 ^ 32 % 2 ^ 23 = w % 2 ^ 23 := by omega
  simp only [widen32, hs, he, hm]

/-- The encoder's half-precision round-trip guard really is a round trip:
a successful narrow produces a pattern that widens back to the input. -/
theorem tryNarrow16_widen {f h16 : Nat} (h : tryNarrow16 f = some h16)
    (hf : f < 2 ^ 64) : widen16 h16 = f := by
  unfold tryNarrow16 at h
  split_ifs at h with hq
  · simp only [Option.some.injEq] at h
    subst h
    unfold fleq at hq
    split_ifs at hq with h1 h2
    · simp only [Bool.and_eq_true] at h2
      have hz : f64IsZero f = true := h2.2
      have hval : f = 0 ∨ f = 2 ^ 63 := by
        simp only [f64IsZero, f64Exp, f64Man, Bool.and_eq_true,
          decide_eq_true_eq] at hz
        omega
      rcases hval with h0 | h0 <;> rw [h0] <;> decide
    · simpa using hq

theorem tryNarrow32_widen {f w32 : Nat} (h : tryNarrow32 f = some w32)
    (hf : f < 2 ^ 64) : widen32 w32 = f := by
  unfold tryNarrow32 at h
  split_ifs at h with hq
  · simp only [Option.some.injEq] at h
    subst h
    unfold fleq at hq
    split_ifs at hq with h1 h2
    · simp only [Bool.and_eq_true] at h2
      have hz : f64IsZero f = true := h2.2
      have hval : f = 0 ∨ f = 2 ^ 63 := by
        simp only [f64IsZero, f64Exp, f64Man, Bool.and_eq_true,
          decide_eq_true_eq] at hz
        omega
      rcases hval with h0 | h0 <;> rw [h0] <;> decide
    · simpa using hq

/-- Decoding one half-precision float header (`0xf9`, selector `0x19`). -/
theorem decodeV_f16 (f' c h16 : Nat) (rest : List Nat) :
    decodeV (f' + 1) (0xf9 :: (be2 h16 ++ rest)) c =
      (.ok (.float (widen16 (h16 % 2 ^ 16)), rest), c) := by
  have hr : readN 2 (be2 h16 ++ rest) = some (be2 h16, rest) := by
    have h := readN_exact (be2 h16) rest
    rwa [show (be2 h16).length = 2 from rfl] at h
  rw [decodeV]
  rw [if_neg (by decide), if_neg (by decide), if_neg (by decide),
      if_neg (by decide), if_neg (by decide), if_neg (by decide),
      if_neg (by decide), if_neg (by decide), if_pos (by decide)]
  rw [hr]
  simp only []
  rw [beVal_be2_mod]

/-- Decoding one single-precision float header (`0xfa`, selector `0x1a`). -/
theorem decodeV_f32 (f' c w32 : Nat) (rest : List Nat) :
    decodeV (f' + 1) (0xfa :: (be4 w32 ++ rest)) c =
      (.ok (.float (widen32 (w32 % 2 ^ 32)), rest), c) := by
  have hr : readN 4 (be4 w32 ++ rest) = some (be4 w32, rest) := by
    have h := readN_exact (be4 w32) rest
    rwa [show (be4 w32).length = 4 from rfl] at h
  rw [decodeV]
  rw [if_neg (by decide), if_neg (by decide), if_neg (by decide),
      if_neg (by decide), if_neg (by decide), if_neg (by decide),
      if_neg (by decide), if_neg (by decide), if_neg (by decide),
      if_pos (by decide)]
  rw [hr]
  simp only []
  rw [beVal_be4_mod]

/-- Decoding one double-precision float header (`0xfb`, selector `0x1b`). -/
theorem decodeV_f64 (f' c w : Nat) (rest : List Nat) :
    decodeV (f' + 1) (0xfb :: (be8 w ++ rest)) c =
      (.ok (.float (w % 2 ^ 64), rest), c) := by
  have hr : readN 8 (be8 w ++ rest) = some (be8 w, rest) := by
    have h := readN_exact (be8 w) rest
    rwa [show (be8 w).length = 8 from rfl] at h
  rw [decodeV]
  rw [if_neg (by decide), if_neg (by decide), if_neg (by decide),
      if_neg (by decide), if_neg (by decide), if_neg (by decide),
      if_neg (by decide), if_neg (by decide), if_neg (by decide),
      if_neg (by decide), if_pos (by decide)]
  rw [hr]
  simp only []
  rw [show beVal (be8 w) = w % 2 ^ 64 from by simp [beVal, be8]; omega]

/-- Decoding an encoding: on well-formed, `Bytes`-free values whose nesting
height fits under the recursion ceiling, the decoder reconstructs the
NaN-normalized value, consumes exactly the encoding, and leaves the depth
counter unchanged — simultaneously for one value, an open sequence and an
open (sorted) map. -/
theorem decodeEnc :
    (∀ v, ∀ enc, wfV v → bytesFreeV v → encodeValue v = .ok enc →
      ∀ fuel c rest, heightV v ≤ fuel → c + heightV v ≤ 258 →
      decodeV fuel (enc ++ rest) c = (.ok (canonV v, rest), c)) ∧
    (∀ xs, ∀ enc, wfL xs → bytesFreeL xs → encodeList xs = .ok enc →
      ∀ fuel c rest acc, heightL xs ≤ fuel → c + 1 + heightL xs ≤ 258 →
      decodeSeqN fuel xs.length acc (enc ++ rest) c =
        (.ok (acc ++ canonL xs, rest), c)) ∧
    (∀ es, ∀ enc, wfE es → bytesFreeE es → encodeEntries es = .ok enc →
      es.Pairwise (fun e1 e2 => cmpValue e1.1 e2.1 = some Ordering.lt) →
      ∀ fuel c rest acc, heightE es ≤ fuel → c + 1 + heightE es ≤ 258 →
      (∀ e ∈ acc, ∀ p ∈ es, cmpValue (canonV p.1) e.1 = some Ordering.gt) →
      decodeMapN fuel es.length acc (enc ++ rest) c =
        (.ok (acc ++ canonE es, rest), c)) := by
  refine valueInduction ?_ ?_ ?_ ?_ ?_ ?_ ?_ ?_ ?_ ?_ ?_ ?_ ?_
  · -- null
    intro enc _ _ henc fuel c rest hfuel _
    simp only [encodeValue, Except.ok.injEq] at henc
    subst henc
    simp only [heightV] at hfuel
    match fuel, hfuel with
    | f + 1, _ => simp [decodeV, majorOf, tagOf, canonV]
  · -- bool
    intro b enc _ _ henc fuel c rest hfuel _
    simp only [encodeValue, Except.ok.injEq] at henc
    subst henc
    simp only [heightV] at hfuel
    match fuel, hfuel with
    | f + 1, _ => cases b <;> simp [decodeV, majorOf, tagOf, canonV]
  · -- integer
    intro i enc hwf _ henc fuel c rest hfuel _
    simp only [wfV] at hwf
    simp only [encodeValue, intBytes] at henc
    simp only [heightV] at hfuel
    split_ifs at henc with hneg hpos
    · obtain ⟨b, tail, hw, hmaj, htag, hparse⟩ :=
        writeU64_roundtrip 1 (-(i + 1)).toNat (by omega) (by omega)
      rw [hw, Except.ok.injEq] at henc
      subst henc
      match fuel, hfuel with
      | f + 1, _ =>
        simp only [List.cons_append]
        rw [decodeV]
        rw [hmaj]
        rw [if_pos (by omega : (1 : Nat) = 0 ∨ (1 : Nat) = 1)]
        rw [hparse rest]
        simp only []
        simp only [reduceIte]
        rw [show -(((-(i + 1)).toNat : Int) + 1) = i from by omega]
        rw [if_pos (by omega)]
        simp [canonV]
    · obtain ⟨b, tail, hw, hmaj, htag, hparse⟩ :=
        writeU64_roundtrip 0 i.toNat (by omega) (by omega)
      rw [hw, Except.ok.injEq] at henc
      subst henc
      match fuel, hfuel with
      | f + 1, _ =>
        simp only [List.cons_append]
        rw [decodeV]
        rw [hmaj]
        rw [if_pos (by omega : (0 : Nat) = 0 ∨ (0 : Nat) = 1)]
        rw [hparse rest]
        simp only []
        rw [show ((i.toNat : Int)) = i from by omega]
        rw [if_pos (by omega)]
        simp [canonV]
  · -- float
    intro f enc hwf _ henc fuel c rest hfuel _
    simp only [wfV] at hwf
    simp only [encodeValue, Except.ok.injEq] at henc
    simp only [heightV] at hfuel
    match fuel, hfuel with
    | f' + 1, _ =>
      unfold floatBytes at henc
      split_ifs at henc with h1 h2 h3
      · have hval : f = 0x7ff0000000000000 := by
          simp only [f64IsInf, f64IsSignPos, f64Exp, f64Man, f64Sign,
            Bool.and_eq_true, decide_eq_true_eq] at h1 h2
          omega
        subst hval
        subst henc
        rw [show (([0xf9, 0x7c, 0x00] : List Nat) ++ rest)
            = 0xf9 :: (be2 0x7c00 ++ rest) from by simp [be2]]
        rw [decodeV_f16]
        rw [show widen16 (0x7c00 % 2 ^ 16) = 0x7ff0000000000000 from by decide]
        rw [show canonV (.float 0x7ff0000000000000)
            = .float 0x7ff0000000000000 from by
          simp only [canonV, canonF]
          rw [if_neg (by decide)]]
      · have hval : f = 0xfff0000000000000 := by
          simp only [f64IsInf, f64IsSignPos, f64Exp, f64Man, f64Sign,
            Bool.and_eq_true, decide_eq_true_eq] at h1 h2
          omega
        subst hval
        subst henc
        rw [show (([0xf9, 0xfc, 0x00] : List Nat) ++ rest)
            = 0xf9 :: (be2 0xfc00 ++ rest) from by simp [be2]]
        rw [decodeV_f16]
        rw [show widen16 (0xfc00 % 2 ^ 16) = 0xfff0000000000000 from by decide]
        rw [show canonV (.float 0xfff0000000000000)
            = .float 0xfff0000000000000 from by
          simp only [canonV, canonF]
          rw [if_neg (by decide)]]
      · subst henc
        rw [show (([0xf9, 0x7e, 0x00] : List Nat) ++ rest)
            = 0xf9 :: (be2 0x7e00 ++ rest) from by simp [be2]]
        rw [decodeV_f16]
        rw [show widen16 (0x7e00 % 2 ^ 16) = 0x7ff8000000000000 from by decide]
        simp only [canonV, canonF, h3, if_true]
      · cases h16eq : tryNarrow16 f with
        | some h16 =>
          simp only [h16eq] at henc
          subst henc
          simp only [List.cons_append]
          rw [decodeV_f16]
          rw [widen16_mod, tryNarrow16_widen h16eq hwf]
          have h3' : f64IsNan f = false := by simpa using h3
          simp only [canonV, canonF, h3', Bool.false_eq_true, if_false]
        | none =>
          cases h32eq : tryNarrow32 f with
          | some w32 =>
            simp only [h16eq, h32eq] at henc
            subst henc
            simp only [List.cons_append]
            rw [decodeV_f32]
            rw [widen32_mod, tryNarrow32_widen h32eq hwf]
            have h3' : f64IsNan f = false := by simpa using h3
            simp only [canonV, canonF, h3', Bool.false_eq_true, if_false]
          | none =>
            simp only [h16eq, h32eq] at henc
            subst henc
            simp only [List.cons_append]
            rw [decodeV_f64]
            rw [Nat.mod_eq_of_lt hwf]
            have h3' : f64IsNan f = false := by simpa using h3
            simp only [canonV, canonF, h3', Bool.false_eq_true, if_false]
  · -- bytes: excluded by bytes-freedom
    intro bs enc _ hbf
    simp only [bytesFreeV] at hbf
  · -- text
    intro ts enc hwf _ henc fuel c rest hfuel _
    simp only [wfV] at hwf
    obtain ⟨hlen, _, hutf⟩ := hwf
    cases hw : writeU64 3 ts.length with
    | error e => simp [encodeValue, hw, Except.bind, bind] at henc
    | ok hdr =>
      simp [encodeValue, hw, Except.bind, bind] at henc
      subst henc
      obtain ⟨b, tail, hw', hmaj, htag, hparse⟩ :=
        writeU64_roundtrip 3 ts.length (by omega) (by omega)
      rw [hw] at hw'
      simp only [Except.ok.injEq] at hw'
      subst hw'
      simp only [heightV] at hfuel
      match fuel, hfuel with
      | f + 1, _ =>
        simp only [List.cons_append, List.append_assoc]
        rw [decodeV]
        rw [hmaj]
        rw [if_neg (by omega), if_neg (by omega), if_pos (rfl : (3:Nat) = 3)]
        rw [if_neg (by omega)]
        rw [show parseKnownLen (tagOf b) (tail ++ (ts ++ rest)) =
            .ok (ts, rest) from by
          unfold parseKnownLen
          rw [hparse]
          simp only []
          rw [if_neg (by simp only [List.length_append]; omega)]
          rw [List.take_left, List.drop_left]]
        simp only []
        rw [if_pos hutf]
        simp [canonV]
  · -- array
    intro xs ih enc hwf hbf henc fuel c rest hfuel hc
    simp only [wfV] at hwf
    obtain ⟨hlen, hwl⟩ := hwf
    simp only [bytesFreeV] at hbf
    cases hw : writeU64 4 xs.length with
    | error e => simp [encodeValue, hw, Except.bind, bind] at henc
    | ok hdr =>
      cases hb : encodeList xs with
      | error e => simp [encodeValue, hw, hb, Except.bind, bind] at henc
      | ok body =>
        simp [encodeValue, hw, hb, Except.bind, bind] at henc
        subst henc
        obtain ⟨b, tail, hw', hmaj, htag, hparse⟩ :=
          writeU64_roundtrip 4 xs.length (by omega) (by omega)
        rw [hw] at hw'
        simp only [Except.ok.injEq] at hw'
        subst hw'
        simp only [heightV] at hfuel hc
        match fuel, (show heightL xs + 1 ≤ fuel from by omega) with
        | f + 1, hfuel2 =>
          simp only [List.cons_append, List.append_assoc]
          rw [decodeV]
          rw [hmaj]
          rw [if_neg (by omega), if_neg (by omega), if_neg (by omega),
              if_pos (rfl : (4:Nat) = 4)]
          rw [if_neg (by omega)]
          rw [hparse (body ++ rest)]
          simp only []
          rw [ih body hwl hbf hb f c rest [] (by omega) (by omega)]
          simp [canonV]
  · -- map
    intro es ih enc hwf hbf henc fuel c rest hfuel hc
    simp only [wfV] at hwf
    obtain ⟨hlen, hwe, hpair⟩ := hwf
    simp only [bytesFreeV] at hbf
    cases hw : writeU64 5 es.length with
    | error e => simp [encodeValue, hw, Except.bind, bind] at henc
    | ok hdr =>
      cases hb : encodeEntries es with
      | error e => simp [encodeValue, hw, hb, Except.bind, bind] at henc
      | ok body =>
        simp [encodeValue, hw, hb, Except.bind, bind] at henc
        subst henc
        obtain ⟨b, tail, hw', hmaj, htag, hparse⟩ :=
          writeU64_roundtrip 5 es.length (by omega) (by omega)
        rw [hw] at hw'
        simp only [Except.ok.injEq] at hw'
        subst hw'
        simp only [heightV] at hfuel hc
        match fuel, (show heightE es + 1 ≤ fuel from by omega) with
        | f + 1, hfuel2 =>
          simp only [List.cons_append, List.append_assoc]
          rw [decodeV]
          rw [hmaj]
          rw [if_neg (by omega), if_neg (by omega), if_neg (by omega),
              if_neg (by omega), if_pos (rfl : (5:Nat) = 5)]
          rw [if_neg (by omega)]
          rw [hparse (body ++ rest)]
          simp only []
          rw [ih body hwe hbf hb hpair f c rest [] (by omega) (by omega)
              (fun e he => absurd he (List.not_mem_nil e))]
          simp [canonV]
  · -- tag: never serializable
    intro t v _ enc hwf
    simp only [wfV] at hwf
  · -- sequence, nil
    intro enc _ _ henc fuel c rest acc _ _
    simp only [encodeList, Except.ok.injEq] at henc
    subst henc
    simp only [List.length_nil, List.nil_append, canonL, List.append_nil]
    rw [decodeSeqN]
  · -- sequence, cons
    intro x r ihx ihr enc hwf hbf henc fuel c rest acc hfuel hc
    simp only [wfL] at hwf
    obtain ⟨hwx, hwr⟩ := hwf
    simp only [bytesFreeL] at hbf
    obtain ⟨hbx, hbr⟩ := hbf
    cases ha : encodeValue x with
    | error e => simp [encodeList, ha, Except.bind, bind] at henc
    | ok a =>
      cases hb : encodeList r with
      | error e => simp [encodeList, ha, hb, Except.bind, bind] at henc
      | ok bEnc =>
        simp [encodeList, ha, hb, Except.bind, bind] at henc
        subst henc
        simp only [heightL] at hfuel hc
        have hmx := le_max_left (heightV x) (heightL r)
        have hmr := le_max_right (heightV x) (heightL r)
        have hpx := heightV_pos x
        simp only [List.length_cons, List.append_assoc]
        rw [decodeSeqN]
        rw [recurseChecked]
        rw [if_neg (by omega)]
        rw [ihx a hwx hbx ha fuel (c + 1) (bEnc ++ rest) (by omega) (by omega)]
        simp only [Nat.add_sub_cancel]
        rw [ihr bEnc hwr hbr hb fuel c rest (acc ++ [canonV x]) (by omega)
            (by omega)]
        simp [canonL, List.append_assoc]
  · -- entries, nil
    intro enc _ _ henc _ fuel c rest acc _ _ _
    simp only [encodeEntries, Except.ok.injEq] at henc
    subst henc
    simp only [List.length_nil, List.nil_append, canonE, List.append_nil]
    rw [decodeMapN]
  · -- entries, cons
    intro k v r ihk ihv ihr enc hwf hbf henc hpair fuel c rest acc hfuel hc hacc
    simp only [wfE] at hwf
    obtain ⟨hwk, hwv, hwr⟩ := hwf
    simp only [bytesFreeE] at hbf
    obtain ⟨hbk, hbv, hbr⟩ := hbf
    rw [List.pairwise_cons] at hpair
    obtain ⟨hlt, hpair'⟩ := hpair
    cases ha : encodeValue k with
    | error e => simp [encodeEntries, ha, Except.bind, bind] at henc
    | ok a =>
      cases hb : encodeValue v with
      | error e => simp [encodeEntries, ha, hb, Except.bind, bind] at henc
      | ok bEnc =>
        cases hcc : encodeEntries r with
        | error e => simp [encodeEntries, ha, hb, hcc, Except.bind, bind] at henc
        | ok cEnc =>
          simp [encodeEntries, ha, hb, hcc, Except.bind, bind] at henc
          subst henc
          simp only [heightE] at hfuel hc
          have h1 : heightV k ≤ max (max (heightV k) (heightV v)) (heightE r) :=
            le_trans (le_max_left _ _) (le_max_left _ _)
          have h2 : heightV v ≤ max (max (heightV k) (heightV v)) (heightE r) :=
            le_trans (le_max_right _ _) (le_max_left _ _)
          have h3 : heightE r ≤ max (max (heightV k) (heightV v)) (heightE r) :=
            le_max_right _ _
          have hpk := heightV_pos k
          have hacc' : ∀ e ∈ acc ++ [(canonV k, canonV v)], ∀ p ∈ r,
              cmpValue (canonV p.1) e.1 = some Ordering.gt := by
            intro e he p hp
            rcases List.mem_append.mp he with hmem | hmem
            · exact hacc e hmem p (List.mem_cons_of_mem _ hp)
            · have he2 : e = (canonV k, canonV v) := by simpa using hmem
              subst he2
              have hlt2 : cmpValue k p.1 = some Ordering.lt := hlt p hp
              have hgt : cmpValue p.1 k = some Ordering.gt := by
                rw [cmpValue_swap, hlt2]
                rfl
              show cmpValue (canonV p.1) (canonV k) = some Ordering.gt
              rw [cmpValue_canon]
              exact hgt
          simp only [List.length_cons, List.append_assoc]
          rw [decodeMapN]
          rw [recurseChecked]
          rw [if_neg (by omega)]
          rw [ihk a hwk hbk ha fuel (c + 1) (bEnc ++ (cEnc ++ rest))
              (by omega) (by omega)]
          simp only [Nat.add_sub_cancel]
          rw [recurseChecked]
          rw [if_neg (by omega)]
          rw [ihv bEnc hwv hbv hb fuel (c + 1) (cEnc ++ rest)
              (by omega) (by omega)]
          simp only [Nat.add_sub_cancel]
          rw [btInsert_append acc (canonV k) (canonV v)
              (fun e he => hacc e he (k, v) (List.mem_cons_self _ _))]
          simp only []
          rw [ihr cEnc hwr hbr hcc hpair' fuel c rest
              (acc ++ [(canonV k, canonV v)]) (by omega) (by omega) hacc']
          simp [canonE, List.append_assoc]

/-- `from_slice` of `to_vec`, for well-formed, `Bytes`-free values within
the nesting tolerance: the decoder returns the NaN-normalized value. -/
theorem fromSlice_toVec {v : Value} {enc : List Nat} (hwf : wfV v)
    (hbf : bytesFreeV v) (hh : heightV v ≤ 258) (henc : toVec v = .ok enc) :
    fromSlice enc = .ok (canonV v) := by
  rw [toVec_eq] at henc
  have hlen := (encLen.1 v enc henc).1
  unfold fromSlice
  have hdec := decodeEnc.1 v enc hwf hbf henc (enc.length + 1) 0 []
    (by omega) (by omega)
  rw [List.append_nil] at hdec
  rw [hdec]
  simp

/-- C1: CBOR round-trip, as amended.  The spec's round-trip claim fails as
stated: a `Value::Bytes` is serialized through `stream_slice` as a major-4
sequence of integers and decodes back as `Value::Array` (see the
counterexample), and inputs nested beyond the depth guard's tolerance fail
to decode at all.  On the well-formed `Bytes`-free fragment with nesting
height at most 258, decoding an encoding succeeds and returns the
NaN-normalized value, which the canonical comparator judges equal to the
original. -/
theorem c1_round_trip : ∀ v enc, wfV v → bytesFreeV v →
    heightV v ≤ 258 → toVec v = .ok enc →
    fromSlice enc = .ok (canonV v) ∧
      cmpValue (canonV v) v = some Ordering.eq :=
  fun _ enc hwf hbf hh henc =>
    ⟨fromSlice_toVec hwf hbf hh henc, cmpValue_canon_eq ⟨enc, henc⟩⟩

/-- The round trip is not the identity on `Value::Bytes`: an empty byte
string serializes as the bytes of an empty array and decodes back as
`Value::Array`, which the canonical comparator ranks strictly above
`Value::Bytes`. -/
theorem c1_counterexample :
    toVec (Value.bytes []) = .ok [0x80] ∧
    fromSlice [0x80] = .ok (Value.array []) ∧
    cmpValue (Value.array []) (Value.bytes []) = some Ordering.gt := by
  refine ⟨?_, ?_, by decide⟩
  · rw [toVec_eq]
    simp [encodeValue, encByteSeq, writeU64, Except.bind, bind]
  · unfold fromSlice
    rw [show ([0x80] : List Nat).length + 1 = 1 + 1 from rfl]
    rw [decodeV]
    rw [if_neg (by decide), if_neg (by decide), if_neg (by decide),
        if_pos (by decide)]
    rw [if_neg (by decide)]
    rw [show parseU64 (tagOf 0x80) ([] : List Nat) = .ok (0, []) from rfl]
    simp only []
    rw [decodeSeqN]
    simp

/-- Concrete instance of the amended round trip: a one-element array of a
small integer encodes to `81 01` and decodes back to itself. -/
theorem c1_witness :
    wfV (Value.array [Value.integer 1]) ∧
    bytesFreeV (Value.array [Value.integer 1]) ∧
    heightV (Value.array [Value.integer 1]) ≤ 258 ∧
    toVec (Value.array [Value.integer 1]) = .ok [0x81, 0x01] ∧
    (fromSlice [0x81, 0x01] = .ok (canonV (Value.array [Value.integer 1])) ∧
      cmpValue (canonV (Value.array [Value.integer 1]))
        (Value.array [Value.integer 1]) = some Ordering.eq) := by
  have h1 : wfV (Value.array [Value.integer 1]) := by
    simp only [wfV, wfL]
    refine ⟨by norm_num, ⟨by norm_num, trivial⟩⟩
  have h2 : bytesFreeV (Value.array [Value.integer 1]) := by
    simp only [bytesFreeV, bytesFreeL]
    exact ⟨trivial, trivial⟩
  have h3 : heightV (Value.array [Value.integer 1]) ≤ 258 := by
    simp [heightV, heightL]
  have h4 : toVec (Value.array [Value.integer 1]) = .ok [0x81, 0x01] := by
    rw [toVec_eq]
    norm_num [encodeValue, encodeList, intBytes, writeU64, Int.toNat_ofNat,
      Except.bind, bind]
  exact ⟨h1, h2, h3, h4, c1_round_trip _ _ h1 h2 h3 h4⟩

/-- C2: depth-ceiling enforcement, as amended.  The guard compares the
previous counter value against 256 before incrementing, so 257 nested
definite array-opens still decode (see the counterexample); the
depth-limit error fires from 258 opens on.  A run of indefinite opens with
no closes exhausts the input (a plain decode error) up to 258 opens and
hits the recursion ceiling beyond; either way `from_slice` returns an
error and never crashes. -/
theorem c2_depth_ceiling : ∀ n : Nat,
    fromSlice (List.replicate n 0x81 ++ [0x00]) =
      (if n ≤ 257 then .ok (nestArr n) else .error .depthLimit) ∧
    fromSlice (List.replicate (n + 1) 0x9f) =
      .error (if n ≤ 257 then .truncated else .depthLimit) := by
  intro n
  constructor
  · unfold fromSlice
    have hl : (List.replicate n (0x81 : Nat) ++ [0x00]).length + 1 = n + 2 := by
      simp
    rw [hl]
    rw [decode81 n (n + 2) 0 (by omega)]
    by_cases hn : n = 0
    · subst hn
      simp
    · rw [if_neg hn]
      by_cases hd : n ≤ 257
      · rw [if_pos (by omega), if_pos hd]
        rfl
      · rw [if_neg (by omega), if_neg hd]
  · unfold fromSlice
    have hl : (List.replicate (n + 1) (0x9f : Nat)).length + 1 = (n + 1) + 1 := by
      simp
    rw [hl]
    rw [show List.replicate (n + 1) (0x9f : Nat)
        = 0x9f :: List.replicate n 0x9f from List.replicate_succ ..]
    rw [decodeV]
    rw [if_neg (by decide), if_neg (by decide), if_neg (by decide),
        if_pos (by decide)]
    rw [if_pos (by decide)]
    rw [seqIndef9f n (n + 1) [] 0 (by omega)]
    simp only []
    by_cases hd : n ≤ 257
    · rw [if_pos (by omega), if_pos hd]
    · rw [if_neg (by omega), if_neg hd]

/-- A 257-deep definite nesting — deeper than the documented ceiling of
256 — decodes successfully instead of failing with the recursion-ceiling
error. -/
theorem c2_counterexample :
    fromSlice (List.replicate 257 0x81 ++ [0x00]) = .ok (nestArr 257) := by
  unfold fromSlice
  have hl : (List.replicate 257 (0x81 : Nat) ++ [0x00]).length + 1 = 259 := by
    rw [List.length_append, List.length_replicate]
    rfl
  rw [hl]
  rw [decode81 257 259 0 (by omega)]
  rw [if_neg (by omega), if_pos (by omega)]
  rfl

/-- C3: totality of the canonical comparator, as amended.  `cmp` panics on
a pair of `Value::Tag`s (the `expect("self is serializable")` on the
serialization fallback — see the counterexample), so the order is total
only on serializable values: there a comparison always returns one of the
three orderings, swapping the operands swaps the verdict, and re-sorting a
sorted container is a no-op. -/
theorem c3_total_order :
    (∀ a b : Value, Serializable a → Serializable b →
      ∃ o, cmpValue a b = some o) ∧
    (∀ a b : Value, cmpValue b a = (cmpValue a b).map Ordering.swap) ∧
    (∀ l : List Value, sortValues (sortValues l) = sortValues l) :=
  ⟨fun _ _ ha hb => cmpValue_isSome ha hb, cmpValue_swap, sortValues_idem⟩

/-- Comparing a `Value::Tag` with itself panics (modelled as `none`): not
every pair of representable values is comparable. -/
theorem c3_counterexample :
    cmpValue (Value.tag 0 Value.null) (Value.tag 0 Value.null) = none := by
  have hv : toVec (Value.tag 0 Value.null) = .error .panicUnimplemented := by
    rw [toVec_eq]
    simp [encodeValue]
  unfold cmpValue
  rw [if_neg (by simp)]
  show cmpFallback (Value.tag 0 Value.null) (Value.tag 0 Value.null) = none
  unfold cmpFallback
  rw [hv]

/-- Two serializable values are always comparable: instance of the
amended totality at two nulls. -/
theorem c3_witness :
    Serializable Value.null ∧ ∃ o, cmpValue Value.null Value.null = some o := by
  have hs : Serializable Value.null := ⟨[0xf6], by rw [toVec_eq]; simp [encodeValue]⟩
  exact ⟨hs, c3_total_order.1 Value.null Value.null hs hs⟩

/-- C4: the rank table, as amended.  The fixed rank holds for bytes (2),
text (3), arrays (4), maps (5) and the shared rank 7 of null, bool and
float, and values of different ranks compare by rank; but integers do not
all share rank 0: `major_type` gives non-negative integers 0 and negative
ones 1, so integers of opposite signs compare by rank (the counterexample)
and only equal-sign integers compare by absolute magnitude.  Byte, text,
array and map payloads of different lengths compare by length. -/
theorem c4_rank_table :
    (∀ a b : Value, majorType a ≠ majorType b →
      cmpValue a b = some (ncmp (majorType a) (majorType b))) ∧
    (∀ i : Int, majorType (Value.integer i) = if 0 ≤ i then 0 else 1) ∧
    (∀ i j : Int, (0 ≤ i ↔ 0 ≤ j) →
      cmpValue (Value.integer i) (Value.integer j) =
        some (ncmp i.natAbs j.natAbs)) ∧
    (∀ x y : List Nat, x.length ≠ y.length →
      cmpValue (Value.bytes x) (Value.bytes y) =
        some (ncmp x.length y.length)) ∧
    (∀ x y : List Nat, x.length ≠ y.length →
      cmpValue (Value.text x) (Value.text y) =
        some (ncmp x.length y.length)) ∧
    (∀ x y : List Value, x.length ≠ y.length →
      cmpValue (Value.array x) (Value.array y) =
        some (ncmp x.length y.length)) ∧
    (∀ x y : List (Value × Value), x.length ≠ y.length →
      cmpValue (Value.map x) (Value.map y) =
        some (ncmp x.length y.length)) ∧
    majorType Value.null = 7 ∧ (∀ b, majorType (Value.bool b) = 7) ∧
    (∀ f, majorType (Value.float f) = 7) ∧
    (∀ bs, majorType (Value.bytes bs) = 2) ∧
    (∀ ts, majorType (Value.text ts) = 3) ∧
    (∀ xs, majorType (Value.array xs) = 4) ∧
    (∀ es, majorType (Value.map es) = 5) := by
  refine ⟨?_, fun i => rfl, ?_, ?_, ?_, ?_, ?_, rfl, fun b => rfl,
    fun f => rfl, fun bs => rfl, fun ts => rfl, fun xs => rfl, fun es => rfl⟩
  · intro a b h
    unfold cmpValue
    rw [if_pos h]
  · intro i j hij
    have hmaj : majorType (Value.integer i) = majorType (Value.integer j) := by
      simp only [majorType]
      by_cases h : 0 ≤ i
      · rw [if_pos h, if_pos (hij.mp h)]
      · rw [if_neg h, if_neg (fun hj => h (hij.mpr hj))]
    unfold cmpValue
    rw [if_neg (by simp [hmaj])]
    rfl
  · intro x y h
    unfold cmpValue
    rw [if_neg (by simp [majorType])]
    show cmpSameMajor (Value.bytes x) (Value.bytes y) = _
    unfold cmpSameMajor
    simp only []
    rw [if_pos h]
  · intro x y h
    unfold cmpValue
    rw [if_neg (by simp [majorType])]
    show cmpSameMajor (Value.text x) (Value.text y) = _
    unfold cmpSameMajor
    simp only []
    rw [if_pos h]
  · intro x y h
    unfold cmpValue
    rw [if_neg (by simp [majorType])]
    show cmpSameMajor (Value.array x) (Value.array y) = _
    unfold cmpSameMajor
    simp only []
    rw [if_pos h]
  · intro x y h
    unfold cmpValue
    rw [if_neg (by simp [majorType])]
    show cmpSameMajor (Value.map x) (Value.map y) = _
    unfold cmpSameMajor
    simp only []
    rw [if_pos h]

/-- Integers of opposite signs but equal absolute magnitude are not
ranked together, contradicting a single integer rank 0: `-1` compares
greater than `1` because negative integers carry major type 1. -/
theorem c4_counterexample :
    cmpValue (Value.integer (-1)) (Value.integer 1) = some Ordering.gt ∧
    Int.natAbs (-1) = Int.natAbs 1 := by
  exact ⟨by decide, by decide⟩

/-- Instances of the amended rank table's conditional components. -/
theorem c4_witness :
    (majorType (Value.integer 1) ≠ majorType (Value.text []) ∧
      cmpValue (Value.integer 1) (Value.text []) =
        some (ncmp (majorType (Value.integer 1))
          (majorType (Value.text [])))) ∧
    ((0 ≤ (2 : Int)) ↔ (0 ≤ (3 : Int))) ∧
    cmpValue (Value.integer 2) (Value.integer 3) =
      some (ncmp (Int.natAbs 2) (Int.natAbs 3)) ∧
    cmpValue (Value.bytes [0, 1]) (Value.bytes []) =
      some (ncmp ([0, 1] : List Nat).length ([] : List Nat).length) ∧
    cmpValue (Value.text [0x61]) (Value.text []) =
      some (ncmp ([0x61] : List Nat).length ([] : List Nat).length) ∧
    cmpValue (Value.array [Value.null]) (Value.array []) =
      some (ncmp ([Value.null] : List Value).length
        ([] : List Value).length) ∧
    cmpValue (Value.map [(Value.null, Value.null)]) (Value.map []) =
      some (ncmp ([(Value.null, Value.null)] : List (Value × Value)).length
        ([] : List (Value × Value)).length) :=
  ⟨⟨by decide, c4_rank_table.1 _ _ (by decide)⟩, by decide,
    c4_rank_table.2.2.1 2 3 (by decide),
    c4_rank_table.2.2.2.1 [0, 1] [] (by decide),
    c4_rank_table.2.2.2.2.1 [0x61] [] (by decide),
    c4_rank_table.2.2.2.2.2.1 [Value.null] [] (by decide),
    c4_rank_table.2.2.2.2.2.2.1 [(Value.null, Value.null)] [] (by decide)⟩

/-- C5: CBOR integer encoding.  In the representable range
`-(2^64) ≤ i ≤ 2^64 - 1`, serialization emits the spec's major-0 /
major-1 minimal big-endian form; outside it, the in-band range error (not
a panic); and the spec's three vectors come out byte for byte. -/
theorem c5_integer_encoding :
    (∀ i : Int, -(2 ^ 64) ≤ i → i ≤ 2 ^ 64 - 1 →
      encodeValue (Value.integer i) = .ok (specIntBytes i)) ∧
    (∀ i : Int, i < -(2 ^ 64) ∨ 2 ^ 64 - 1 < i →
      encodeValue (Value.integer i) = .error .intRange) ∧
    toVec (Value.integer 24) = .ok [0x18, 0x18] ∧
    toVec (Value.integer (-5)) = .ok [0x24] ∧
    toVec (Value.array [Value.integer 1, Value.integer 2, Value.integer 3]) =
      .ok [0x83, 0x01, 0x02, 0x03] := by
  refine ⟨?_, ?_, ?_, ?_, ?_⟩
  · intro i h1 h2
    simp only [encodeValue, intBytes, specIntBytes]
    by_cases hneg : i ≤ -1
    · rw [if_pos ⟨h1, hneg⟩, if_neg (by omega)]
      exact writeU64_eq_spec 1 _ (by omega)
    · rw [if_neg (by omega), if_pos ⟨by omega, h2⟩, if_pos (by omega)]
      exact writeU64_eq_spec 0 _ (by omega)
  · intro i h
    simp only [encodeValue, intBytes]
    rw [if_neg (by omega), if_neg (by omega)]
  · rw [toVec_eq]
    norm_num [encodeValue, intBytes, writeU64] <;> decide
  · rw [toVec_eq]
    norm_num [encodeValue, intBytes, writeU64] <;> decide
  · rw [toVec_eq]
    norm_num [encodeValue, encodeList, intBytes, writeU64,
      Except.bind, bind] <;> decide

/-- The in-range and out-of-range components of the integer-encoding
claim, instantiated at `24` and `2^64`. -/
theorem c5_witness :
    (-(2 ^ 64) ≤ (24 : Int) ∧ (24 : Int) ≤ 2 ^ 64 - 1 ∧
      encodeValue (Value.integer 24) = .ok (specIntBytes 24)) ∧
    (((2 ^ 64 : Int) < -(2 ^ 64) ∨ (2 ^ 64 - 1 : Int) < 2 ^ 64) ∧
      encodeValue (Value.integer (2 ^ 64)) = .error .intRange) :=
  ⟨⟨by decide, by decide, c5_integer_encoding.1 24 (by decide) (by decide)⟩,
    ⟨by decide, c5_integer_encoding.2.1 (2 ^ 64) (by decide)⟩⟩

/-- C6: indefinite-length text strings, as amended.  After a major-3
header with selector `0x1f` the decoder loops over *byte-string* chunks:
each chunk must itself carry a major-2 known-length header (a major-3
chunk is rejected — see the counterexample), chunks are concatenated in
order into one buffer, UTF-8 is validated, and the loop stops at (and
consumes) the break marker `0xff`, delivering the concatenation as the
decoded text. -/
theorem c6_indefinite_text : ∀ (chunks : List (List Nat)) fuel c rest,
    chunks.length + 1 < fuel →
    (∀ ch ∈ chunks, ch.length < 2 ^ 64 ∧ utf8Valid ch = true) →
    decodeV fuel
        ((0x7f :: chunks.flatMap (fun ch => chunkHdr ch ++ ch)) ++
          (0xff :: rest)) c =
      (.ok (.text chunks.flatten, rest), c) := by
  intro chunks fuel c rest hfuel hwf
  match fuel, (show chunks.length + 2 ≤ fuel from by omega) with
  | f + 1, hf =>
    simp only [List.cons_append]
    rw [decodeV]
    rw [if_neg (by decide), if_neg (by decide), if_pos (by decide)]
    rw [if_pos (by decide)]
    rw [decodeChunks_spec true chunks f [] rest (by omega)
      (fun ch hch => ⟨(hwf ch hch).1, fun _ => (hwf ch hch).2⟩)]
    simp

/-- Inside an indefinite-length text string, a chunk headed by major
type 3 (text) is rejected, while the same payload behind a major-2
(byte-string) chunk header decodes. -/
theorem c6_counterexample :
    fromSlice [0x7f, 0x61, 0x61, 0xff] = .error .badChunk ∧
    fromSlice [0x7f, 0x41, 0x61, 0xff] = .ok (Value.text [0x61]) := by
  constructor
  · unfold fromSlice
    rw [show ([0x7f, 0x61, 0x61, 0xff] : List Nat).length + 1 = 4 + 1 from rfl]
    rw [decodeV]
    rw [if_neg (by decide), if_neg (by decide), if_pos (by decide),
        if_pos (by decide)]
    rw [show decodeChunks true 4 [] [0x61, 0x61, 0xff] =
        .error .badChunk from rfl]
  · unfold fromSlice
    rw [show ([0x7f, 0x41, 0x61, 0xff] : List Nat).length + 1 = 4 + 1 from rfl]
    rw [decodeV]
    rw [if_neg (by decide), if_neg (by decide), if_pos (by decide),
        if_pos (by decide)]
    rw [show decodeChunks true 4 [] [0x41, 0x61, 0xff] =
        .ok ([0x61], []) from rfl]
    simp

/-- One `a`-chunk behind a byte-string chunk header, then the break
marker: instance of the amended indefinite-text behavior. -/
theorem c6_witness :
    ([[0x61]] : List (List Nat)).length + 1 < 3 ∧
    (∀ ch ∈ ([[0x61]] : List (List Nat)), ch.length < 2 ^ 64 ∧
      utf8Valid ch = true) ∧
    decodeV 3 ((0x7f :: ([[0x61]] : List (List Nat)).flatMap
        (fun ch => chunkHdr ch ++ ch)) ++ (0xff :: [])) 0 =
      (.ok (.text ([[0x61]] : List (List Nat)).flatten, []), 0) :=
  ⟨by decide, by decide,
    c6_indefinite_text [[0x61]] 3 0 [] (by decide) (by decide)⟩

/-- C7: depth-guard counter balance.  Every entry into the
recursion-checked decode function — and the whole recursive decoder —
returns the thread-local depth counter exactly as found, on success and
on every error path. -/
theorem c7_counter_balance : ∀ fuel (bs : List Nat) (c : Nat),
    (recurseChecked fuel bs c).2 = c ∧ (decodeV fuel bs c).2 = c :=
  fun fuel bs c =>
    ⟨(counterPreserved fuel).2.1 bs c, (counterPreserved fuel).1 bs c⟩

/-- C8: JSON string escaping.  The serializer's chunked loop emits, for
each byte in order, exactly that byte unless it is a control character
(0x00-0x1F), the double quote or the backslash, which become their escape
sequences; every other byte — non-ASCII UTF-8 bytes included — passes
through unescaped. -/
theorem c8_escape_exact : ∀ bytes : List Nat,
    escapeStr bytes = 34 :: bytes.flatMap escByteSpec ++ [34] ∧
    ∀ b : Nat, escByteSpec b =
      (if b < 0x20 ∨ b = 0x22 ∨ b = 0x5c then escSeq b else [b]) := by
  intro bytes
  refine ⟨escapeStr_eq bytes, ?_⟩
  intro b
  unfold escByteSpec
  by_cases h : b < 0x20 ∨ b = 0x22 ∨ b = 0x5c
  · have he : escapeCode b ≠ 0 := by
      unfold escapeCode
      split_ifs <;> omega
    rw [if_neg he, if_pos h]
  · have he : escapeCode b = 0 := by
      unfold escapeCode
      split_ifs <;> omega
    rw [if_pos he, if_neg h]

/-- C9: non-recursive teardown.  The drop work-list, seeded with any
value, pushes only immediate children per iteration and drains within
exactly the tree's node count — no recursion over the tree, so the
native stack usage per iteration is constant regardless of nesting. -/
theorem c9_drop_worklist : ∀ v : Value, dropSafely v = true := by
  have key : ∀ v : Value, drain (nodesV v) [v] = true := fun v =>
    drain_adequate _ _ (by rw [stackNodes_cons, stackNodes_nil]; omega)
  intro v
  cases v <;> first | rfl | exact key _

/-- C10: both null encodings.  Major type 7 with selector 0x16 (`0xF6`)
and selector 0x17 (`0xF7`) dispatch to the same visitor call: the decoder
treats the two byte streams identically, and both one-byte inputs decode
to null. -/
theorem c10_null_alternative :
    (∀ fuel c (rest : List Nat),
      decodeV fuel (0xf6 :: rest) c = decodeV fuel (0xf7 :: rest) c) ∧
    fromSlice [0xf6] = .ok Value.null ∧ fromSlice [0xf7] = .ok Value.null := by
  refine ⟨fun fuel c rest => decodeV_null_alt fuel c rest, ?_, ?_⟩
  · unfold fromSlice
    rw [show ([0xf6] : List Nat).length + 1 = 1 + 1 from rfl]
    rw [decodeV]
    simp [majorOf, tagOf]
  · unfold fromSlice
    rw [show ([0xf7] : List Nat).length + 1 = 1 + 1 from rfl]
    rw [decodeV]
    simp [majorOf, tagOf]

end Miniserde
